import Mathlib

/-!
Verification of the Grid Flow-Network Engine of the whitebox-tools repository.

The development shallowly embeds the flow/connectivity tools:
  * `src/tools/hydro_analysis/fd8_flow_accum.rs` (FD8 flow accumulation),
  * `src/tools/hydro_analysis/basins.rs`        (basin delineation),
  * `src/tools/gis_analysis/clump.rs`           (connected-region labeling).

Machine `f64` values are modelled exactly by `ℚ`; the foreign `f64::powf`
is a function parameter.  Rasters are modelled as total functions
`Cell → value` together with grid dimensions; following the spec of the
raster collaborator (spec §6/§9), an out-of-range read returns the
grid's no-data sentinel and an out-of-range write is a no-op.
Unbounded `while` loops are modelled with explicit fuel; a result of
`none` means the loop did not finish (insufficient fuel, divergence, or
a Rust panic such as an out-of-bounds table index).
-/

namespace Whitebox

/-- A cell address, `(row, column)`, as in the Rust code's `(isize, isize)`. -/
abbrev Cell : Type := ℤ × ℤ

/-- Grid dimensions: row and column counts (`rows`, `columns` in the code). -/
structure Dims where
  rows : ℤ
  cols : ℤ
deriving DecidableEq

/-- Whether a cell lies inside the grid. -/
def Dims.inB (d : Dims) (p : Cell) : Bool :=
  decide (0 ≤ p.1) && decide (p.1 < d.rows) && decide (0 ≤ p.2) && decide (p.2 < d.cols)

/-- Modelled from the spec: raster/array indexed read.  The raster I/O
collaborator is not part of the sources; spec §9 states that
out-of-range reads of border cells must return the no-data sentinel. -/
def gget {α : Type} (d : Dims) (nd : α) (f : Cell → α) (p : Cell) : α :=
  if d.inB p then f p else nd

/-- Modelled from the spec: raster/array indexed write; writes outside
the grid are a no-op (the collaborator bounds-checks all access). -/
def gset {α : Type} (d : Dims) (f : Cell → α) (p : Cell) (v : α) : Cell → α :=
  if d.inB p then (fun q => if q = p then v else f q) else f

/-- Modelled from the spec: `Raster::increment` — add `v` to the value
stored at `p`, a no-op outside the grid. -/
def gincr (d : Dims) (f : Cell → ℚ) (p : Cell) (v : ℚ) : Cell → ℚ :=
  if d.inB p then (fun q => if q = p then f q + v else f q) else f

/-- Modelled from the spec: `Array2D::decrement` — subtract `v` from the
value stored at `p`, a no-op outside the grid. -/
def gdecr (d : Dims) (f : Cell → ℤ) (p : Cell) (v : ℤ) : Cell → ℤ :=
  if d.inB p then (fun q => if q = p then f q - v else f q) else f

/-- Column offsets `d_x = [1, 1, 1, 0, -1, -1, -1, 0]`
(fd8_flow_accum.rs lines 331, basins.rs line 187). -/
def dX : Fin 8 → ℤ := ![1, 1, 1, 0, -1, -1, -1, 0]

/-- Row offsets `d_y = [-1, 0, 1, 1, 1, 0, -1, -1]`
(fd8_flow_accum.rs line 332, basins.rs line 188). -/
def dY : Fin 8 → ℤ := ![-1, 0, 1, 1, 1, 0, -1, -1]

/-- The neighbour of `p` in direction `i`: `(row + d_y[i], col + d_x[i])`. -/
def mv (p : Cell) (i : Fin 8) : Cell := (p.1 + dY i, p.2 + dX i)

/-- Row-major enumeration of the grid cells (the `for row … for col …` scans). -/
def cellsList (d : Dims) : List Cell :=
  (List.range d.rows.toNat).flatMap
    (fun r => (List.range d.cols.toNat).map (fun c => (Int.ofNat r, Int.ofNat c)))

namespace Basins

/-- Whitebox-style D8 pointer table (basins.rs lines 202-213): a
129-slot array, filled with `0`, mapping the single-bit pointer codes
`1,2,4,8,16,32,64,128` onto offset indices `0..7`. -/
def pntrMatchesNative : List ℤ :=
  ((((((((List.replicate 129 (0 : ℤ)).set 1 0).set 2 1).set 4 2).set 8 3).set
      16 4).set 32 5).set 64 6).set 128 7

/-- Esri-style D8 pointer table (basins.rs lines 214-225). -/
def pntrMatchesEsri : List ℤ :=
  ((((((((List.replicate 129 (0 : ℤ)).set 1 1).set 2 2).set 4 3).set 8 4).set
      16 5).set 32 6).set 64 7).set 128 0

/-- Probing the table at a raw index, `pntr_matches[z as usize]`; `none`
models the Rust out-of-bounds panic for indices past the 129 slots. -/
def probe (tbl : List ℤ) (z : ℕ) : Option ℤ := tbl.get? z

/-- The table probe index cast `z as usize` for a positive `f64`. -/
def rawIdx (z : ℚ) : ℕ := z.floor.toNat

/-- The eight valid single-bit D8 pointer codes. -/
def d8Codes : List ℕ := [1, 2, 4, 8, 16, 32, 64, 128]

/-- State built by the initialization scan of basins.rs lines 227-251:
the decoded flow-direction grid, the output raster, and the running
basin-id counter. -/
structure InitState where
  flowDir : Cell → ℤ
  out : Cell → ℚ
  basinId : ℚ

/-- One cell of the initialization scan (basins.rs lines 229-243): a
valid positive pointer is decoded through the table; a non-positive
pointer marks a pit, getting flow direction `-1` and a fresh basin id;
a no-data pointer writes no-data to the output. -/
def initCell (d : Dims) (nodata : ℚ) (tbl : List ℤ) (pntr : Cell → ℚ)
    (st : InitState) (p : Cell) : Option InitState :=
  if gget d nodata pntr p ≠ nodata then
    if 0 < gget d nodata pntr p then
      match probe tbl (rawIdx (gget d nodata pntr p)) with
      | none => none
      | some v => some { st with flowDir := gset d st.flowDir p v }
    else
      some { st with flowDir := gset d st.flowDir p (-1),
                     basinId := st.basinId + 1,
                     out := gset d st.out p (st.basinId + 1) }
  else
    some { st with out := gset d st.out p nodata }

/-- The full initialization scan over the grid in row-major order.  The
flow-direction grid starts at the `Array2D` fill `-2` and the output
raster at `low_value` (`f64::MIN`, modelled by the parameter `low`). -/
def basinsInit (d : Dims) (nodata low : ℚ) (esri : Bool) (pntr : Cell → ℚ) :
    Option InitState :=
  (cellsList d).foldlM
    (initCell d nodata (if esri then pntrMatchesEsri else pntrMatchesNative) pntr)
    { flowDir := fun _ => -2, out := fun _ => low, basinId := 0 }

/-- Guarded direction decode for `dx[dir as usize]`: directions `0..7`
index the offset tables, anything else is a Rust out-of-bounds panic. -/
def dirIdx (dir : ℤ) : Option (Fin 8) :=
  if h : 0 ≤ dir ∧ dir < 8 then some ⟨dir.toNat, by omega⟩ else none

/-- First pointer-chasing walk of basins.rs lines 261-282: starting at
an unresolved cell, follow flow directions until hitting a cell whose
output differs from `low` (its value becomes the outlet id) or a cell
with a negative direction (the outlet id stays `nodata`).  The walk
does not mutate the output; `none` models divergence or a panic. -/
def walk1 (d : Dims) (nodata low : ℚ) (fd : Cell → ℤ) (out : Cell → ℚ) :
    ℕ → Cell → Option ℚ
  | 0, _ => none
  | n + 1, p =>
    if 0 ≤ gget d (-2) fd p then
      match dirIdx (gget d (-2) fd p) with
      | none => none
      | some i =>
        if gget d nodata out (mv p i) ≠ low then some (gget d nodata out (mv p i))
        else walk1 d nodata low fd out n (mv p i)
    else some nodata

/-- Second, mutating walk of basins.rs lines 284-304: re-traverse the
same path, writing the discovered outlet id into every visited cell
(including the terminus that ended the walk). -/
def walk2 (d : Dims) (nodata low : ℚ) (fd : Cell → ℤ) (oid : ℚ) :
    ℕ → Cell → (Cell → ℚ) → Option (Cell → ℚ)
  | 0, _, _ => none
  | n + 1, p, out =>
    if 0 ≤ gget d (-2) fd p then
      match dirIdx (gget d (-2) fd p) with
      | none => none
      | some i =>
        if gget d nodata out (mv p i) ≠ low then some (gset d out (mv p i) oid)
        else walk2 d nodata low fd oid n (mv p i) (gset d out (mv p i) oid)
    else some (gset d out p oid)

/-- The per-cell body of the resolution pass (basins.rs lines 259-305):
a cell still at the sentinel runs the two walks, the start cell being
overwritten with the outlet id before the second walk. -/
def resolveCell (d : Dims) (nodata low : ℚ) (fd : Cell → ℤ) (fuel : ℕ)
    (out : Cell → ℚ) (p : Cell) : Option (Cell → ℚ) :=
  if gget d nodata out p = low then
    match walk1 d nodata low fd out fuel p with
    | none => none
    | some oid => walk2 d nodata low fd oid fuel p (gset d out p oid)
  else some out

/-- The resolution pass over a list of cells (the row-major double loop
of basins.rs lines 257-314). -/
def resolvePass (d : Dims) (nodata low : ℚ) (fd : Cell → ℤ) (fuel : ℕ) :
    List Cell → (Cell → ℚ) → Option (Cell → ℚ)
  | [], out => some out
  | p :: ps, out =>
    match resolveCell d nodata low fd fuel out p with
    | none => none
    | some out2 => resolvePass d nodata low fd fuel ps out2

/-- A 1-by-2 flow-direction grid for the stability witness: cell (0,0)
flows east into cell (0,1), which is a pit. -/
def w10Fd : Cell → ℤ := fun p => if p = ((0 : ℤ), (1 : ℤ)) then -1 else 1

/-- An output raster in which cell (0,1) is already labeled 7 and cell
(0,0) is still at the unresolved sentinel `-999999`. -/
def w10Out : Cell → ℚ := fun p => if p = ((0 : ℤ), (1 : ℤ)) then 7 else -999999

/-- A 1-by-2 pointer grid whose first cell carries the unmapped raw
pointer value 3 and whose second cell carries the mapped code 1. -/
def c3Pntr : Cell → ℚ := fun p => if p = ((0 : ℤ), (1 : ℤ)) then 1 else 3

/-- The initialization state of `Basins` on `c3Pntr` under the native
pointer scheme (nodata `-32768`, `low_value` modelled as `-999999`). -/
def c3St : Basins.InitState :=
  (Basins.basinsInit ⟨1, 2⟩ (-32768) (-999999) false c3Pntr).get (by decide)

/-- A 1-by-2 pointer grid forming a pointer cycle of length 2: cell
(0,0) carries native code 2 (east) and cell (0,1) carries native code
32 (west), so each points at the other and neither is a pit. -/
def c2Pntr : Cell → ℚ := fun p => if p = ((0 : ℤ), (1 : ℤ)) then 32 else 2

/-- The initialization state of `Basins` on the cyclic grid `c2Pntr`. -/
def c2St : Basins.InitState :=
  (Basins.basinsInit ⟨1, 2⟩ (-32768) (-999999) false c2Pntr).get (by decide)

end Basins

namespace FD8

/-- Parameters of one FD8 run (fd8_flow_accum.rs lines 260-266 and the
tool arguments): grid shape, no-data sentinel, fan-out exponent,
convergence threshold, cell sizes, the precomputed diagonal length, and
the foreign `f64::powf`, taken as a function parameter. -/
structure Params where
  d : Dims
  nodata : ℚ
  exponent : ℚ
  threshold : ℚ
  cx : ℚ
  cy : ℚ
  diag : ℚ
  powf : ℚ → ℚ → ℚ

/-- Per-direction physical travel distances `grid_lengths`
(fd8_flow_accum.rs lines 337-346): the diagonal length for ordinal
directions and the cell width or height for cardinal ones. -/
def gridLengths (cx cy diag : ℚ) : Fin 8 → ℚ :=
  ![diag, cx, diag, cy, diag, cx, diag, cy]

/-- The loop of fd8_flow_accum.rs lines 286-291: count the neighbours
whose raster value is strictly greater than the cell's own value
(out-of-range neighbours read as the no-data value). -/
def inflowCount (P : Params) (input : Cell → ℚ) (p : Cell) : ℤ :=
  (List.finRange 8).foldl
    (fun count i =>
      if gget P.d P.nodata input (mv p i) > gget P.d P.nodata input p
      then count + 1 else count) 0

/-- The in-degree grid (fd8_flow_accum.rs lines 281-297): valid cells
hold their inflow count, no-data cells keep the `Array2D` fill `-1`. -/
def numInflowInit (P : Params) (input : Cell → ℚ) (p : Cell) : ℤ :=
  if gget P.d P.nodata input p ≠ P.nodata then inflowCount P input p else -1

/-- The interior-pit flag (fd8_flow_accum.rs lines 293-295): raised when
some valid cell counts all 8 neighbours as strictly higher. -/
def interiorPit (P : Params) (input : Cell → ℚ) : Bool :=
  (cellsList P.d).any fun p =>
    decide (gget P.d P.nodata input p ≠ P.nodata) && decide (inflowCount P input p = 8)

/-- The below-threshold downslope test (fd8_flow_accum.rs line 366):
the neighbour is strictly lower and is not no-data. -/
def downBelow (P : Params) (input : Cell → ℚ) (p : Cell) (i : Fin 8) : Bool :=
  decide (gget P.d P.nodata input (mv p i) < gget P.d P.nodata input p) &&
    decide (gget P.d P.nodata input (mv p i) ≠ P.nodata)

/-- The below-threshold weight of a neighbour (fd8_flow_accum.rs line
367): `(z - z_n).powf(exponent)` for downslope neighbours, 0 otherwise. -/
def wBelow (P : Params) (input : Cell → ℚ) (p : Cell) (i : Fin 8) : ℚ :=
  if downBelow P input p i
  then P.powf (gget P.d P.nodata input p - gget P.d P.nodata input (mv p i)) P.exponent
  else 0

/-- The accumulated `total_weights` of the below-threshold branch
(fd8_flow_accum.rs line 368). -/
def totalBelow (P : Params) (input : Cell → ℚ) (p : Cell) : ℚ :=
  ∑ i : Fin 8, wBelow P input p i

/-- The slope towards a neighbour (fd8_flow_accum.rs line 379):
`(z - z_n) / grid_lengths[i]`. -/
def slope (P : Params) (input : Cell → ℚ) (p : Cell) (i : Fin 8) : ℚ :=
  (gget P.d P.nodata input p - gget P.d P.nodata input (mv p i)) /
    gridLengths P.cx P.cy P.diag i

/-- The above-threshold downslope test (fd8_flow_accum.rs lines
378-381): the neighbour is not no-data and the slope is positive. -/
def downSteep (P : Params) (input : Cell → ℚ) (p : Cell) (i : Fin 8) : Bool :=
  decide (gget P.d P.nodata input (mv p i) ≠ P.nodata) &&
    decide (0 < slope P input p i)

/-- One direction of the steepest-descent scan (fd8_flow_accum.rs lines
376-388): a valid neighbour with a positive slope strictly above the
running maximum becomes the new steepest direction. -/
def steepStep (P : Params) (input : Cell → ℚ) (p : Cell)
    (acc : Fin 8 × Option ℚ) (i : Fin 8) : Fin 8 × Option ℚ :=
  if gget P.d P.nodata input (mv p i) ≠ P.nodata ∧ 0 < slope P input p i then
    match acc.2 with
    | none => (i, some (slope P input p i))
    | some m => if m < slope P input p i then (i, some (slope P input p i)) else acc
  else acc

/-- The steepest-descent scan of fd8_flow_accum.rs lines 374-388: fold
over the 8 directions keeping the direction of the strictly largest
positive slope seen so far.  The initial `max_slope = f64::MIN` is
modelled as `none`: any finite positive slope exceeds it, and the final
`max_slope >= 0` test of line 389 is `isSome` here. -/
def steepDir (P : Params) (input : Cell → ℚ) (p : Cell) : Fin 8 × Option ℚ :=
  (List.finRange 8).foldl (steepStep P input p) (0, none)

/-- The above-threshold weights (fd8_flow_accum.rs lines 389-392):
weight 1 on the steepest direction when one exists, 0 elsewhere. -/
def wSteep (P : Params) (input : Cell → ℚ) (p : Cell) (i : Fin 8) : ℚ :=
  if (steepDir P input p).2.isSome ∧ i = (steepDir P input p).1 then 1 else 0

/-- The above-threshold `total_weights` (fd8_flow_accum.rs line 391). -/
def totalSteep (P : Params) (input : Cell → ℚ) (p : Cell) : ℚ :=
  if (steepDir P input p).2.isSome then 1 else 0

/-- The downslope flags of the branch selected by the convergence
threshold (fd8_flow_accum.rs line 361). -/
def downOf (P : Params) (input : Cell → ℚ) (p : Cell) (fa : ℚ) (i : Fin 8) : Bool :=
  if fa < P.threshold then downBelow P input p i else downSteep P input p i

/-- The weights of the branch selected by the convergence threshold. -/
def wOf (P : Params) (input : Cell → ℚ) (p : Cell) (fa : ℚ) (i : Fin 8) : ℚ :=
  if fa < P.threshold then wBelow P input p i else wSteep P input p i

/-- The `total_weights` of the branch selected by the threshold. -/
def totalOf (P : Params) (input : Cell → ℚ) (p : Cell) (fa : ℚ) : ℚ :=
  if fa < P.threshold then totalBelow P input p else totalSteep P input p

/-- The mutable state of the propagation loop: the accumulator raster,
the in-degree grid, and the stack frontier. -/
structure St where
  out : Cell → ℚ
  ni : Cell → ℤ
  stk : List Cell

/-- One neighbour update of the distribution loop (fd8_flow_accum.rs
lines 396-405): a downslope neighbour receives `fa * (weights[i] /
total_weights)`, its in-degree is decremented, and it is pushed when
the decremented counter reads 0. -/
def distStep (P : Params) (p : Cell) (fa total : ℚ) (w : Fin 8 → ℚ)
    (down : Fin 8 → Bool) (s : St) (i : Fin 8) : St :=
  if down i then
    { out := gincr P.d s.out (mv p i) (fa * (w i / total)),
      ni := gdecr P.d s.ni (mv p i) 1,
      stk := if gget P.d (-1) (gdecr P.d s.ni (mv p i) 1) (mv p i) = 0
             then mv p i :: s.stk else s.stk }
  else s

/-- Processing of one popped cell (fd8_flow_accum.rs lines 350-407):
read `fa`, retire the cell's in-degree slot to `-1`, compute the
branch's weights, and, when `total_weights > 0`, run the distribution
loop over the 8 neighbours. -/
def fd8Step (P : Params) (input : Cell → ℚ) (s : St) (p : Cell) : St :=
  if 0 < totalOf P input p (gget P.d P.nodata s.out p) then
    (List.finRange 8).foldl
      (distStep P p (gget P.d P.nodata s.out p)
        (totalOf P input p (gget P.d P.nodata s.out p))
        (wOf P input p (gget P.d P.nodata s.out p))
        (downOf P input p (gget P.d P.nodata s.out p)))
      { s with ni := gset P.d s.ni p (-1) }
  else { s with ni := gset P.d s.ni p (-1) }

/-- The frontier loop (fd8_flow_accum.rs lines 350-417), with explicit
fuel; `none` models a loop that did not finish within the fuel. -/
def fd8Loop (P : Params) (input : Cell → ℚ) : ℕ → St → Option St
  | 0, s => if s.stk.isEmpty then some s else none
  | n + 1, s =>
    match s.stk with
    | [] => some s
    | p :: rest => fd8Loop P input n (fd8Step P input { s with stk := rest } p)

/-- The initial frontier (fd8_flow_accum.rs lines 314-320): cells whose
in-degree is 0, pushed in row-major order. -/
def seedStack (P : Params) (input : Cell → ℚ) : List Cell :=
  (cellsList P.d).foldl
    (fun acc p => if numInflowInit P input p = 0 then p :: acc else acc) []

/-- Result of a completed FD8 propagation: the accumulator raster
(before the unit post-scaling), the final in-degree grid, and the
interior-pit flag. -/
structure RunResult where
  out : Cell → ℚ
  ni : Cell → ℤ
  pit : Bool

/-- A full FD8 propagation run: the in-degree pass, the seeding scan
over the baseline-1 accumulator, and the frontier loop. -/
def fd8Run (P : Params) (input : Cell → ℚ) (fuel : ℕ) : Option RunResult :=
  match fd8Loop P input fuel
      { out := fun _ => 1, ni := numInflowInit P input, stk := seedStack P input } with
  | none => none
  | some s => some { out := s.out, ni := s.ni, pit := interiorPit P input }

/-- The structural-warning taxonomy of spec section 7(b).  The code can
only ever emit the interior-pit warning; `residualCells` exists to
express the reporting the spec asks for. -/
inductive StructuralWarning where
  | interiorPit : StructuralWarning
  | residualCells : StructuralWarning
deriving DecidableEq

/-- The warnings reported after a completed run (fd8_flow_accum.rs
lines 493-499): the interior-pit message, and nothing else. -/
def fd8Warnings (pit : Bool) : List StructuralWarning :=
  if pit then [StructuralWarning.interiorPit] else []

/-- Parameters for the C5 counterexample: a 1-by-3 grid with threshold
50, so a cell holding accumulation 100 takes the steepest-descent
branch. -/
def c5P : Params :=
  { d := ⟨1, 3⟩, nodata := -99, exponent := 11/10, threshold := 50,
    cx := 1, cy := 1, diag := 1, powf := fun x _ => x }

/-- Elevations 9, 10, 5: the centre cell (0,1) has two strictly lower
valid neighbours, west (0,0) with drop 1 and east (0,2) with drop 5. -/
def c5In : Cell → ℚ := fun p =>
  if p = ((0 : ℤ), (0 : ℤ)) then 9 else if p = ((0 : ℤ), (1 : ℤ)) then 10
  else if p = ((0 : ℤ), (2 : ℤ)) then 5 else 0

/-- A propagation state in which the centre cell holds accumulation 100
(at or above the threshold 50). -/
def c5St : St :=
  { out := fun _ => 100,
    ni := fun p => if p = ((0 : ℤ), (0 : ℤ)) then 2 else 1, stk := [] }

/-- Parameters for the C4 witness: same ramp grid, threshold 99 (so the
baseline accumulation 1 is below it), the foreign power function
instantiated at exponent 1. -/
def c4P : Params :=
  { d := ⟨1, 3⟩, nodata := -99, exponent := 1, threshold := 99,
    cx := 1, cy := 1, diag := 1, powf := fun x _ => x }

/-- A fresh propagation state: baseline accumulation 1 everywhere. -/
def unitSt : St := { out := fun _ => 1, ni := fun _ => 1, stk := [] }

/-- Parameters for the C6 witness: anisotropic cells 3 by 4 with
diagonal 5, threshold 1, so the baseline accumulation 1 is at the
threshold and the steepest-descent branch is taken. -/
def c6P : Params :=
  { d := ⟨1, 3⟩, nodata := -99, exponent := 1, threshold := 1,
    cx := 3, cy := 4, diag := 5, powf := fun x _ => x }

/-- Refinement reference, following the claim's words: the number of
the 8 neighbours that are in bounds, not no-data, and strictly higher
than the cell. -/
def claimInflowCount (P : Params) (input : Cell → ℚ) (p : Cell) : ℤ :=
  ((Finset.univ.filter (fun i : Fin 8 =>
      P.d.inB (mv p i) = true ∧ gget P.d P.nodata input (mv p i) ≠ P.nodata ∧
        gget P.d P.nodata input (mv p i) > gget P.d P.nodata input p)).card : ℤ)

/-- Parameters for the C7 counterexample: a 1-by-1 grid whose no-data
sentinel 100 is numerically greater than the cell value. -/
def c7P : Params :=
  { d := ⟨1, 1⟩, nodata := 100, exponent := 1, threshold := 99,
    cx := 1, cy := 1, diag := 1, powf := fun x _ => x }

/-- The all-zero input surface. -/
def c7In : Cell → ℚ := fun _ => 0

/-- Parameters for the C1 counterexample: a 3-by-3 grid whose no-data
value 10 sits numerically between the two value groups, giving two
cells an in-degree that can never be retired. -/
def c1P : Params :=
  { d := ⟨3, 3⟩, nodata := 10, exponent := 1, threshold := 99,
    cx := 1, cy := 1, diag := 1, powf := fun x _ => x }

/-- The input surface: cell (0,0) holds the no-data value 10; cells
(0,1) and (0,2) hold 5 (below no-data); the remaining cells hold 12-17
(above no-data).  Every valid cell except (0,1) and (0,2) resolves. -/
def c1In : Cell → ℚ := fun p =>
  if p = ((0 : ℤ), (0 : ℤ)) then 10 else if p = ((0 : ℤ), (1 : ℤ)) then 5
  else if p = ((0 : ℤ), (2 : ℤ)) then 5 else if p = ((1 : ℤ), (0 : ℤ)) then 12
  else if p = ((1 : ℤ), (1 : ℤ)) then 13 else if p = ((1 : ℤ), (2 : ℤ)) then 14
  else if p = ((2 : ℤ), (0 : ℤ)) then 15 else if p = ((2 : ℤ), (1 : ℤ)) then 16
  else 17

/-- The completed run on the C1 grid (the frontier empties within fuel
10). -/
def c1Res : RunResult := (fd8Run c1P c1In 10).get (by with_unfolding_all decide)

end FD8

namespace Clump

/-- The neighbour offsets the flood fill iterates (clump.rs lines
206-213), as `(dx, dy)` pairs: with `diag` all 8 offsets of the
canonical table, otherwise the 4 cardinal ones (the padding zeros of
the source's 8-slot arrays are never iterated, `num_neighbours = 4`). -/
def clumpOffsets (diag : Bool) : List (ℤ × ℤ) :=
  if diag then (List.finRange 8).map (fun i => (dX i, dY i))
  else [(0, -1), (1, 0), (0, 1), (-1, 0)]

/-- The neighbour at offset `o = (dx, dy)`: `(r + dy[i], c + dx[i])`. -/
def cnbr (p : Cell) (o : ℤ × ℤ) : Cell := (p.1 + o.2, p.2 + o.1)

/-- One neighbour check of the flood fill (clump.rs lines 252-260): a
same-valued neighbour whose output is still no-data receives the
current region id and is pushed. -/
def nbrStep (d : Dims) (nodata : ℚ) (input : Cell → ℚ) (z fid : ℚ) (c : Cell)
    (acc : (Cell → ℚ) × List Cell) (o : ℤ × ℤ) : (Cell → ℚ) × List Cell :=
  if gget d nodata input (cnbr c o) = z ∧ gget d nodata acc.1 (cnbr c o) = nodata
  then (gset d acc.1 (cnbr c o) fid, cnbr c o :: acc.2) else acc

/-- Processing of one popped cell: check all iterated neighbours. -/
def floodStep (d : Dims) (nodata : ℚ) (diag : Bool) (input : Cell → ℚ)
    (z fid : ℚ) (st : (Cell → ℚ) × List Cell) (c : Cell) :
    (Cell → ℚ) × List Cell :=
  (clumpOffsets diag).foldl (nbrStep d nodata input z fid c) st

/-- The flood-fill loop of clump.rs lines 235-261, with explicit fuel. -/
def flood (d : Dims) (nodata : ℚ) (diag : Bool) (input : Cell → ℚ)
    (z fid : ℚ) : ℕ → (Cell → ℚ) × List Cell → Option (Cell → ℚ)
  | 0, st => if st.2.isEmpty then some st.1 else none
  | n + 1, st =>
    match st.2 with
    | [] => some st.1
    | c :: rest =>
      flood d nodata diag input z fid n
        (floodStep d nodata diag input z fid (st.1, rest) c)

/-- The row-major labeling scan of clump.rs lines 225-276: a valid,
non-background, unlabeled cell receives a fresh region id and seeds a
flood fill; no-data cells are skipped; background cells receive the
background value as their label. -/
def clumpScan (d : Dims) (nodata : ℚ) (diag : Bool) (back : ℚ)
    (input : Cell → ℚ) (fuel : ℕ) :
    List Cell → (Cell → ℚ) × ℚ → Option ((Cell → ℚ) × ℚ)
  | [], st => some st
  | p :: ps, st =>
    if gget d nodata input p ≠ nodata ∧ gget d nodata input p ≠ back ∧
        gget d nodata st.1 p = nodata then
      match flood d nodata diag input (gget d nodata input p) (st.2 + 1) fuel
          (gset d st.1 p (st.2 + 1), [p]) with
      | none => none
      | some out2 =>
        clumpScan d nodata diag back input fuel ps (out2, st.2 + 1)
    else if gget d nodata input p = nodata then
      clumpScan d nodata diag back input fuel ps st
    else if gget d nodata input p = back then
      clumpScan d nodata diag back input fuel ps (gset d st.1 p back, st.2)
    else clumpScan d nodata diag back input fuel ps st

/-- A full region-labeling run: the scan over all cells, the output
raster starting at no-data and the region counter `fid` at 0. -/
def clumpRun (d : Dims) (nodata : ℚ) (diag : Bool) (back : ℚ)
    (input : Cell → ℚ) (fuel : ℕ) : Option ((Cell → ℚ) × ℚ) :=
  clumpScan d nodata diag back input fuel (cellsList d) (fun _ => nodata, 0)

/-- Reachability through 8-connected, equal-valued (value `z`) cells:
the connectivity relation of the claim. -/
inductive ReachEq (d : Dims) (nodata : ℚ) (input : Cell → ℚ) (z : ℚ) :
    Cell → Cell → Prop where
  | refl (p : Cell) : gget d nodata input p = z → ReachEq d nodata input z p p
  | tail (p q : Cell) (i : Fin 8) : ReachEq d nodata input z p q →
      gget d nodata input (mv q i) = z → ReachEq d nodata input z p (mv q i)

/-- The 3-by-3 grid of the C9 scenario. -/
def c9d : Dims := ⟨3, 3⟩

/-- The flat all-valid surface: every cell holds 7. -/
def c9In : Cell → ℚ := fun _ => 7

/-- The completed labeling run on the flat 3-by-3 surface (no-data -9,
background value -8, 8-connectivity). -/
def c9Res : (Cell → ℚ) × ℚ :=
  (clumpRun c9d (-9) true (-8) c9In 30).get (by with_unfolding_all decide)

end Clump

end Whitebox

namespace Whitebox

theorem offsets_distinct : ∀ i j : Fin 8, dY i = dY j → dX i = dX j → i = j := by
  decide

theorem offsets_ne_zero : ∀ i : Fin 8, ¬(dY i = 0 ∧ dX i = 0) := by
  decide

theorem mv_injective (p : Cell) : ∀ i j : Fin 8, mv p i = mv p j → i = j := by
  intro i j h
  have h1 : p.1 + dY i = p.1 + dY j := congrArg Prod.fst h
  have h2 : p.2 + dX i = p.2 + dX j := congrArg Prod.snd h
  exact offsets_distinct i j (by omega) (by omega)

theorem mv_ne_self (p : Cell) (i : Fin 8) : mv p i ≠ p := by
  intro h
  have h1 : p.1 + dY i = p.1 := congrArg Prod.fst h
  have h2 : p.2 + dX i = p.2 := congrArg Prod.snd h
  exact offsets_ne_zero i ⟨by omega, by omega⟩

theorem gget_apply {α : Type} (d : Dims) (nd : α) (f : Cell → α) (p : Cell) :
    gget d nd f p = if d.inB p then f p else nd := rfl

theorem gset_apply {α : Type} (d : Dims) (f : Cell → α) (p : Cell) (v : α)
    (q : Cell) : gset d f p v q = if d.inB p ∧ q = p then v else f q := by
  unfold gset
  by_cases hin : d.inB p
  · rw [if_pos hin]
    by_cases hq : q = p
    · rw [if_pos hq, if_pos ⟨hin, hq⟩]
    · rw [if_neg hq, if_neg (by tauto)]
  · rw [if_neg hin, if_neg (by tauto)]

theorem gincr_apply (d : Dims) (f : Cell → ℚ) (p : Cell) (v : ℚ) (q : Cell) :
    gincr d f p v q = if d.inB p ∧ q = p then f q + v else f q := by
  unfold gincr
  by_cases hin : d.inB p
  · rw [if_pos hin]
    by_cases hq : q = p
    · rw [if_pos hq, if_pos ⟨hin, hq⟩]
    · rw [if_neg hq, if_neg (by tauto)]
  · rw [if_neg hin, if_neg (by tauto)]

theorem gdecr_apply (d : Dims) (f : Cell → ℤ) (p : Cell) (v : ℤ) (q : Cell) :
    gdecr d f p v q = if d.inB p ∧ q = p then f q - v else f q := by
  unfold gdecr
  by_cases hin : d.inB p
  · rw [if_pos hin]
    by_cases hq : q = p
    · rw [if_pos hq, if_pos ⟨hin, hq⟩]
    · rw [if_neg hq, if_neg (by tauto)]
  · rw [if_neg hin, if_neg (by tauto)]

namespace Basins

/-- C8: for each pointer-coding scheme (native/Whitebox and ESRI), the
mapping from the 8 valid single-bit codes to direction indices 0..7 is
a bijection: every code maps to a direction index, no two codes map to
the same index, and all 8 indices are hit. -/
theorem pntr_tables_bijective :
    (∀ c ∈ d8Codes, ∃ k : Fin 8, probe pntrMatchesNative c = some (k : ℤ)) ∧
    (∀ c1 ∈ d8Codes, ∀ c2 ∈ d8Codes,
      probe pntrMatchesNative c1 = probe pntrMatchesNative c2 → c1 = c2) ∧
    (∀ k : Fin 8, ∃ c ∈ d8Codes, probe pntrMatchesNative c = some (k : ℤ)) ∧
    (∀ c ∈ d8Codes, ∃ k : Fin 8, probe pntrMatchesEsri c = some (k : ℤ)) ∧
    (∀ c1 ∈ d8Codes, ∀ c2 ∈ d8Codes,
      probe pntrMatchesEsri c1 = probe pntrMatchesEsri c2 → c1 = c2) ∧
    (∀ k : Fin 8, ∃ c ∈ d8Codes, probe pntrMatchesEsri c = some (k : ℤ)) := by
  decide

theorem walk2_preserves_labels (d : Dims) (nodata low : ℚ) (fd : Cell → ℤ)
    (oid : ℚ) :
    ∀ (n : ℕ) (p : Cell) (out out2 out2' : Cell → ℚ),
      (∀ c, out c ≠ low → out2 c = out c) →
      walk1 d nodata low fd out n p = some oid →
      gget d nodata out p = low →
      walk2 d nodata low fd oid n p out2 = some out2' →
      ∀ c, out c ≠ low → out2' c = out c := by
  intro n
  induction n with
  | zero =>
    intro p out out2 out2' h1 hw1 hp hw2
    exact absurd hw2 (by simp [walk2])
  | succ n ih =>
    intro p out out2 out2' h1 hw1 hp hw2
    rw [walk1] at hw1
    rw [walk2] at hw2
    by_cases hdir : 0 ≤ gget d (-2) fd p
    · rw [if_pos hdir] at hw1 hw2
      cases hidx : dirIdx (gget d (-2) fd p) with
      | none => rw [hidx] at hw2; exact absurd hw2 (by simp)
      | some i =>
        simp only [hidx] at hw1 hw2
        by_cases hstop : gget d nodata out2 (mv p i) ≠ low
        · rw [if_pos hstop] at hw2
          have hout2' : out2' = gset d out2 (mv p i) oid :=
            (Option.some_inj.mp hw2).symm
          subst hout2'
          by_cases hso : gget d nodata out (mv p i) ≠ low
          · rw [if_pos hso] at hw1
            have hoid : oid = gget d nodata out (mv p i) :=
              (Option.some_inj.mp hw1).symm
            intro c hc
            rw [gset_apply]
            by_cases hcp : d.inB (mv p i) ∧ c = mv p i
            · rw [if_pos hcp, hoid, gget_apply, if_pos hcp.1, hcp.2]
            · rw [if_neg hcp]; exact h1 c hc
          · rw [if_neg hso] at hw1
            have hlow : gget d nodata out (mv p i) = low := not_not.mp hso
            intro c hc
            rw [gset_apply]
            by_cases hcp : d.inB (mv p i) ∧ c = mv p i
            · exfalso
              rw [gget_apply, if_pos hcp.1] at hlow
              exact hc (hcp.2 ▸ hlow)
            · rw [if_neg hcp]; exact h1 c hc
        · rw [if_neg hstop] at hw2
          have hs2 : gget d nodata out2 (mv p i) = low := not_not.mp hstop
          have hA : gget d nodata out (mv p i) = low := by
            by_cases hin : d.inB (mv p i)
            · rw [gget_apply, if_pos hin] at hs2 ⊢
              by_contra hne
              rw [h1 (mv p i) hne] at hs2
              exact hne hs2
            · rw [gget_apply, if_neg hin] at hs2 ⊢
              exact hs2
          rw [if_neg (not_not.mpr hA)] at hw1
          have h1' : ∀ c, out c ≠ low → gset d out2 (mv p i) oid c = out c := by
            intro c hc
            rw [gset_apply]
            by_cases hcp : d.inB (mv p i) ∧ c = mv p i
            · exfalso
              rw [gget_apply, if_pos hcp.1] at hA
              exact hc (hcp.2 ▸ hA)
            · rw [if_neg hcp]; exact h1 c hc
          exact ih (mv p i) out (gset d out2 (mv p i) oid) out2' h1' hw1 hA hw2
    · rw [if_neg hdir] at hw2
      have hout2' : out2' = gset d out2 p oid := (Option.some_inj.mp hw2).symm
      subst hout2'
      intro c hc
      rw [gset_apply]
      by_cases hcp : d.inB p ∧ c = p
      · exfalso
        rw [gget_apply, if_pos hcp.1] at hp
        exact hc (hcp.2 ▸ hp)
      · rw [if_neg hcp]; exact h1 c hc

theorem resolveCell_preserves_labels (d : Dims) (nodata low : ℚ)
    (fd : Cell → ℤ) (fuel : ℕ) (out out' : Cell → ℚ) (p : Cell)
    (hrc : resolveCell d nodata low fd fuel out p = some out') :
    ∀ c, out c ≠ low → out' c = out c := by
  unfold resolveCell at hrc
  by_cases hguard : gget d nodata out p = low
  · rw [if_pos hguard] at hrc
    cases hw : walk1 d nodata low fd out fuel p with
    | none => rw [hw] at hrc; exact absurd hrc (by simp)
    | some oid =>
      rw [hw] at hrc
      refine walk2_preserves_labels d nodata low fd oid fuel p out
        (gset d out p oid) out' ?_ hw hguard hrc
      intro c hc
      rw [gset_apply]
      by_cases hcp : d.inB p ∧ c = p
      · exfalso
        rw [gget_apply, if_pos hcp.1] at hguard
        exact hc (hcp.2 ▸ hguard)
      · rw [if_neg hcp]
  · rw [if_neg hguard] at hrc
    intro c hc
    rw [(Option.some_inj.mp hrc).symm]

/-- C10: resolved labels are stable.  Whenever the resolution pass of
`Basins` completes over any list of start cells, every cell whose
output already differed from the unresolved sentinel `low` keeps its
exact value: the back-fill walk writes the discovered identifier into
the already-labeled terminus cell, but that identifier always equals
the terminus's existing value. -/
theorem basins_resolved_labels_stable (d : Dims) (nodata low : ℚ)
    (fd : Cell → ℤ) (fuel : ℕ) :
    ∀ (L : List Cell) (out out' : Cell → ℚ),
      resolvePass d nodata low fd fuel L out = some out' →
      ∀ c, out c ≠ low → out' c = out c := by
  intro L
  induction L with
  | nil =>
    intro out out' h c hc
    rw [(Option.some_inj.mp h).symm]
  | cons p ps ih =>
    intro out out' h c hc
    rw [resolvePass] at h
    cases hrc : resolveCell d nodata low fd fuel out p with
    | none => rw [hrc] at h; exact absurd h (by simp)
    | some out2 =>
      rw [hrc] at h
      have h2 := resolveCell_preserves_labels d nodata low fd fuel out out2 p
        hrc c hc
      have hc2 : out2 c ≠ low := by rw [h2]; exact hc
      rw [ih out2 out' h c hc2, h2]

theorem basins_resolved_labels_stable_witness :
    ∃ f, Basins.resolvePass ⟨1, 2⟩ (-32768) (-999999) w10Fd 5
        [(0, 0), (0, 1)] w10Out = some f ∧ f (0, 1) = 7 := by
  have h : (Basins.resolvePass ⟨1, 2⟩ (-32768) (-999999) w10Fd 5
      [(0, 0), (0, 1)] w10Out).isSome := by decide
  obtain ⟨f, hf⟩ := Option.isSome_iff_exists.mp h
  refine ⟨f, hf, ?_⟩
  have := Whitebox.Basins.basins_resolved_labels_stable ⟨1, 2⟩ (-32768)
    (-999999) w10Fd 5 [(0, 0), (0, 1)] w10Out f hf (0, 1) (by decide)
  rw [this]
  decide

/-- C3 counterexample: probing the native table with the unmapped raw
value 3 returns direction index 0 — the very index that the mapped code
1 yields — not a distinguished "undefined" result, and `Basins` then
stores the valid direction 0 (not the undefined sentinel `-1`) for a
cell whose pointer is 3.  Likewise the ESRI table sends the unmapped
value 3 to index 0, colliding with the mapped code 128. -/
theorem pntr_unmapped_probe_not_undefined :
    Basins.probe Basins.pntrMatchesNative 3 = some 0 ∧
    Basins.probe Basins.pntrMatchesNative 1 = some 0 ∧
    Basins.probe Basins.pntrMatchesEsri 3 = some 0 ∧
    Basins.probe Basins.pntrMatchesEsri 128 = some 0 ∧
    Basins.basinsInit ⟨1, 2⟩ (-32768) (-999999) false c3Pntr = some c3St ∧
    c3St.flowDir (0, 0) = 0 ∧ c3St.flowDir (0, 1) = 0 ∧
    (0 : ℤ) ≠ -1 := by
  refine ⟨by decide, by decide, by decide, by decide, (Option.some_get _).symm,
    by decide, by decide, by decide⟩

/-- C3 amended: within the 129-slot tables, every unmapped raw value
probes to the fill value 0, which is also the direction index of a
mapped code; so the probe result for an unmapped in-range value is
indistinguishable from a valid direction index. -/
theorem pntr_unmapped_probe_is_fill :
    ∀ z : ℕ, z < 129 → z ∉ d8Codes →
      probe pntrMatchesNative z = some 0 ∧ probe pntrMatchesEsri z = some 0 := by
  decide

theorem pntr_unmapped_probe_is_fill_witness :
    (3 : ℕ) < 129 ∧ (3 : ℕ) ∉ d8Codes ∧
      (probe pntrMatchesNative 3 = some 0 ∧ probe pntrMatchesEsri 3 = some 0) :=
  ⟨by decide, by decide, pntr_unmapped_probe_is_fill 3 (by decide) (by decide)⟩

theorem walk1_two_cycle (d : Dims) (nodata low : ℚ) (fd : Cell → ℤ)
    (out : Cell → ℚ) (a b : Cell) (ia ib : Fin 8)
    (ha1 : 0 ≤ gget d (-2) fd a) (ha2 : dirIdx (gget d (-2) fd a) = some ia)
    (ha3 : mv a ia = b) (ha4 : gget d nodata out b = low)
    (hb1 : 0 ≤ gget d (-2) fd b) (hb2 : dirIdx (gget d (-2) fd b) = some ib)
    (hb3 : mv b ib = a) (hb4 : gget d nodata out a = low) :
    ∀ n : ℕ, walk1 d nodata low fd out n a = none ∧
      walk1 d nodata low fd out n b = none := by
  intro n
  induction n with
  | zero => exact ⟨rfl, rfl⟩
  | succ n ih =>
    constructor
    · show walk1 d nodata low fd out (n + 1) a = none
      rw [walk1, if_pos ha1, ha2]
      simp only [ha3, ha4]
      simpa using ih.2
    · show walk1 d nodata low fd out (n + 1) b = none
      rw [walk1, if_pos hb1, hb2]
      simp only [hb3, hb4]
      simpa using ih.1

/-- C2: on a pointer cycle of length 2, the pointer-chasing walk of
`Basins` never terminates: after initialization both cells hold valid
directions pointing at each other, both outputs are still the
unresolved sentinel, and the first walk returns no result for any
amount of fuel — the Rust `while` loop runs forever, and no
unresolved/defect condition is ever reported. -/
theorem basins_pointer_cycle_walk_diverges :
    Basins.basinsInit ⟨1, 2⟩ (-32768) (-999999) false c2Pntr = some c2St ∧
    c2St.flowDir (0, 0) = 1 ∧ c2St.flowDir (0, 1) = 5 ∧
    c2St.out (0, 0) = -999999 ∧ c2St.out (0, 1) = -999999 ∧
    ∀ n : ℕ,
      Basins.walk1 ⟨1, 2⟩ (-32768) (-999999) c2St.flowDir c2St.out n (0, 0) =
        none := by
  refine ⟨(Option.some_get _).symm, by decide, by decide, by decide, by decide,
    fun n => ?_⟩
  have h := Basins.walk1_two_cycle ⟨1, 2⟩ (-32768) (-999999) c2St.flowDir
    c2St.out (0, 0) (0, 1) 1 5 (by decide) (by decide) (by decide) (by decide)
    (by decide) (by decide) (by decide) (by decide) n
  exact h.1

end Basins

namespace FD8

theorem downBelow_inB (P : Params) (input : Cell → ℚ) (p : Cell) (i : Fin 8)
    (h : downBelow P input p i = true) : P.d.inB (mv p i) = true := by
  rw [downBelow, Bool.and_eq_true, decide_eq_true_iff, decide_eq_true_iff] at h
  by_contra hin
  exact h.2 (by rw [gget_apply, if_neg (by simpa using hin)])

theorem downSteep_inB (P : Params) (input : Cell → ℚ) (p : Cell) (i : Fin 8)
    (h : downSteep P input p i = true) : P.d.inB (mv p i) = true := by
  rw [downSteep, Bool.and_eq_true, decide_eq_true_iff, decide_eq_true_iff] at h
  by_contra hin
  exact h.1 (by rw [gget_apply, if_neg (by simpa using hin)])

theorem downOf_inB (P : Params) (input : Cell → ℚ) (p : Cell) (fa : ℚ)
    (i : Fin 8) (h : downOf P input p fa i = true) : P.d.inB (mv p i) = true := by
  rw [downOf] at h
  by_cases hf : fa < P.threshold
  · exact downBelow_inB P input p i (by rwa [if_pos hf] at h)
  · exact downSteep_inB P input p i (by rwa [if_neg hf] at h)

theorem distStep_out_other (P : Params) (p : Cell) (fa total : ℚ)
    (w : Fin 8 → ℚ) (down : Fin 8 → Bool) (s : St) (i : Fin 8) (q : Cell)
    (hne : q ≠ mv p i) :
    (distStep P p fa total w down s i).out q = s.out q := by
  by_cases hd : down i
  · simp only [distStep, if_pos hd]
    rw [gincr_apply, if_neg (by tauto)]
  · simp only [distStep, if_neg hd]

theorem distStep_ni_other (P : Params) (p : Cell) (fa total : ℚ)
    (w : Fin 8 → ℚ) (down : Fin 8 → Bool) (s : St) (i : Fin 8) (q : Cell)
    (hne : q ≠ mv p i) :
    (distStep P p fa total w down s i).ni q = s.ni q := by
  by_cases hd : down i
  · simp only [distStep, if_pos hd]
    rw [gdecr_apply, if_neg (by tauto)]
  · simp only [distStep, if_neg hd]

theorem distStep_stk_other (P : Params) (p : Cell) (fa total : ℚ)
    (w : Fin 8 → ℚ) (down : Fin 8 → Bool) (s : St) (i : Fin 8) (q : Cell)
    (hne : q ≠ mv p i) :
    (q ∈ (distStep P p fa total w down s i).stk ↔ q ∈ s.stk) := by
  by_cases hd : down i
  · simp only [distStep, if_pos hd]
    by_cases hpush : gget P.d (-1) (gdecr P.d s.ni (mv p i) 1) (mv p i) = 0
    · rw [if_pos hpush]
      simp [hne]
    · rw [if_neg hpush]
  · simp only [distStep, if_neg hd]

theorem distStep_push_cond (P : Params) (s : St) (p : Cell) (i : Fin 8) :
    (gget P.d (-1) (gdecr P.d s.ni (mv p i) 1) (mv p i) = 0) ↔
      (P.d.inB (mv p i) = true ∧ s.ni (mv p i) = 1) := by
  rw [gget_apply, gdecr_apply]
  by_cases hin : P.d.inB (mv p i)
  · rw [if_pos hin, if_pos ⟨hin, rfl⟩]
    constructor
    · intro h; exact ⟨hin, by omega⟩
    · intro h; omega
  · rw [if_neg hin]
    constructor
    · intro h; omega
    · intro h; exact absurd h.1 hin

theorem distStep_out_self (P : Params) (p : Cell) (fa total : ℚ)
    (w : Fin 8 → ℚ) (down : Fin 8 → Bool) (s : St) (i : Fin 8) :
    (distStep P p fa total w down s i).out (mv p i) =
      if down i = true ∧ P.d.inB (mv p i) = true
      then s.out (mv p i) + fa * (w i / total) else s.out (mv p i) := by
  by_cases hd : down i
  · simp only [distStep, if_pos hd]
    rw [gincr_apply]
    by_cases hin : P.d.inB (mv p i)
    · rw [if_pos ⟨hin, rfl⟩, if_pos ⟨hd, hin⟩]
    · rw [if_neg (by tauto), if_neg (by tauto)]
  · simp only [distStep, if_neg hd]
    rw [if_neg (by tauto)]

theorem distStep_ni_self (P : Params) (p : Cell) (fa total : ℚ)
    (w : Fin 8 → ℚ) (down : Fin 8 → Bool) (s : St) (i : Fin 8) :
    (distStep P p fa total w down s i).ni (mv p i) =
      if down i = true ∧ P.d.inB (mv p i) = true
      then s.ni (mv p i) - 1 else s.ni (mv p i) := by
  by_cases hd : down i
  · simp only [distStep, if_pos hd]
    rw [gdecr_apply]
    by_cases hin : P.d.inB (mv p i)
    · rw [if_pos ⟨hin, rfl⟩, if_pos ⟨hd, hin⟩]
    · rw [if_neg (by tauto), if_neg (by tauto)]
  · simp only [distStep, if_neg hd]
    rw [if_neg (by tauto)]

theorem distStep_stk_self (P : Params) (p : Cell) (fa total : ℚ)
    (w : Fin 8 → ℚ) (down : Fin 8 → Bool) (s : St) (i : Fin 8) :
    (mv p i ∈ (distStep P p fa total w down s i).stk ↔
      mv p i ∈ s.stk ∨
        (down i = true ∧ P.d.inB (mv p i) = true ∧ s.ni (mv p i) = 1)) := by
  by_cases hd : down i
  · simp only [distStep, if_pos hd]
    by_cases hpush : gget P.d (-1) (gdecr P.d s.ni (mv p i) 1) (mv p i) = 0
    · rw [if_pos hpush]
      obtain ⟨hin, hni⟩ := (distStep_push_cond P s p i).mp hpush
      simp [hd, hin, hni]
    · rw [if_neg hpush]
      have : ¬(P.d.inB (mv p i) = true ∧ s.ni (mv p i) = 1) :=
        fun h => hpush ((distStep_push_cond P s p i).mpr h)
      tauto
  · simp only [distStep, if_neg hd]
    tauto

theorem distFold_effect (P : Params) (p : Cell) (fa total : ℚ)
    (w : Fin 8 → ℚ) (down : Fin 8 → Bool) :
    ∀ (L : List (Fin 8)), L.Nodup → ∀ (s : St) (j : Fin 8),
      ((L.foldl (distStep P p fa total w down) s).out (mv p j) =
        if j ∈ L ∧ down j = true ∧ P.d.inB (mv p j) = true
        then s.out (mv p j) + fa * (w j / total) else s.out (mv p j)) ∧
      ((L.foldl (distStep P p fa total w down) s).ni (mv p j) =
        if j ∈ L ∧ down j = true ∧ P.d.inB (mv p j) = true
        then s.ni (mv p j) - 1 else s.ni (mv p j)) ∧
      (mv p j ∈ (L.foldl (distStep P p fa total w down) s).stk ↔
        mv p j ∈ s.stk ∨
          (j ∈ L ∧ down j = true ∧ P.d.inB (mv p j) = true ∧ s.ni (mv p j) = 1)) := by
  intro L
  induction L with
  | nil =>
    intro _ s j
    simp
  | cons i L ih =>
    intro hnd s j
    rw [List.nodup_cons] at hnd
    simp only [List.foldl_cons]
    by_cases hji : j = i
    · subst hji
      obtain ⟨ho, hn, hs⟩ := ih hnd.2 (distStep P p fa total w down s j) j
      have hmem : (j ∈ j :: L) := List.mem_cons_self j L
      refine ⟨?_, ?_, ?_⟩
      · rw [ho, if_neg (fun h => hnd.1 h.1), distStep_out_self]
        by_cases hc : down j = true ∧ P.d.inB (mv p j) = true
        · rw [if_pos hc, if_pos ⟨hmem, hc⟩]
        · rw [if_neg hc, if_neg (by tauto)]
      · rw [hn, if_neg (fun h => hnd.1 h.1), distStep_ni_self]
        by_cases hc : down j = true ∧ P.d.inB (mv p j) = true
        · rw [if_pos hc, if_pos ⟨hmem, hc⟩]
        · rw [if_neg hc, if_neg (by tauto)]
      · rw [hs, distStep_stk_self]
        have hnotL : j ∉ L := hnd.1
        tauto
    · have hne : mv p j ≠ mv p i := fun h => hji (mv_injective p j i h)
      obtain ⟨ho, hn, hs⟩ := ih hnd.2 (distStep P p fa total w down s i) j
      have hmem : (j ∈ i :: L) ↔ (j ∈ L) := by
        simp [List.mem_cons, hji]
      refine ⟨?_, ?_, ?_⟩
      · rw [ho, distStep_out_other P p fa total w down s i _ hne]
        by_cases hc : j ∈ L ∧ down j = true ∧ P.d.inB (mv p j) = true
        · rw [if_pos hc, if_pos ⟨hmem.mpr hc.1, hc.2⟩]
        · rw [if_neg hc, if_neg (by rw [hmem]; tauto)]
      · rw [hn, distStep_ni_other P p fa total w down s i _ hne]
        by_cases hc : j ∈ L ∧ down j = true ∧ P.d.inB (mv p j) = true
        · rw [if_pos hc, if_pos ⟨hmem.mpr hc.1, hc.2⟩]
        · rw [if_neg hc, if_neg (by rw [hmem]; tauto)]
      · rw [hs, distStep_stk_other P p fa total w down s i _ hne,
          distStep_ni_other P p fa total w down s i _ hne]
        rw [hmem]

theorem fd8Step_neighbor_effect (P : Params) (input : Cell → ℚ) (s : St)
    (p : Cell) (j : Fin 8) :
    ((fd8Step P input s p).out (mv p j) =
      if 0 < totalOf P input p (gget P.d P.nodata s.out p) ∧
          downOf P input p (gget P.d P.nodata s.out p) j = true
      then s.out (mv p j) +
        gget P.d P.nodata s.out p *
          (wOf P input p (gget P.d P.nodata s.out p) j /
            totalOf P input p (gget P.d P.nodata s.out p))
      else s.out (mv p j)) ∧
    ((fd8Step P input s p).ni (mv p j) =
      if 0 < totalOf P input p (gget P.d P.nodata s.out p) ∧
          downOf P input p (gget P.d P.nodata s.out p) j = true
      then s.ni (mv p j) - 1 else s.ni (mv p j)) ∧
    (mv p j ∈ (fd8Step P input s p).stk ↔
      mv p j ∈ s.stk ∨
        (0 < totalOf P input p (gget P.d P.nodata s.out p) ∧
          downOf P input p (gget P.d P.nodata s.out p) j = true ∧
          s.ni (mv p j) = 1)) := by
  have hs1ni : (gset P.d s.ni p (-1)) (mv p j) = s.ni (mv p j) := by
    rw [gset_apply, if_neg (fun h => mv_ne_self p j h.2)]
  by_cases hg : 0 < totalOf P input p (gget P.d P.nodata s.out p)
  · rw [fd8Step, if_pos hg]
    obtain ⟨ho, hn, hstk⟩ := distFold_effect P p (gget P.d P.nodata s.out p)
      (totalOf P input p (gget P.d P.nodata s.out p))
      (wOf P input p (gget P.d P.nodata s.out p))
      (downOf P input p (gget P.d P.nodata s.out p))
      (List.finRange 8) (List.nodup_finRange 8)
      { s with ni := gset P.d s.ni p (-1) } j
    dsimp only at ho hn hstk
    have hmem : j ∈ List.finRange 8 := List.mem_finRange j
    refine ⟨?_, ?_, ?_⟩
    · rw [ho]
      by_cases hd : downOf P input p (gget P.d P.nodata s.out p) j = true
      · rw [if_pos ⟨hmem, hd, downOf_inB P input p _ j hd⟩, if_pos ⟨hg, hd⟩]
      · rw [if_neg (by tauto), if_neg (by tauto)]
    · rw [hn]
      by_cases hd : downOf P input p (gget P.d P.nodata s.out p) j = true
      · rw [if_pos ⟨hmem, hd, downOf_inB P input p _ j hd⟩, hs1ni,
          if_pos ⟨hg, hd⟩]
      · rw [if_neg (by tauto), hs1ni, if_neg (by tauto)]
    · rw [hstk, hs1ni]
      by_cases hd : downOf P input p (gget P.d P.nodata s.out p) j = true
      · have hin := downOf_inB P input p _ j hd
        tauto
      · tauto
  · rw [fd8Step, if_neg hg]
    dsimp only
    refine ⟨by rw [if_neg (by tauto)], ?_, by tauto⟩
    rw [if_neg (by tauto)]
    exact hs1ni

/-- C5 amended: in the frontier step, a neighbour's accumulator is
incremented, its in-degree is decremented, and it enters the frontier
exactly when the popped cell marks it downslope and the branch's
`total_weights` is positive — regardless of whether the contribution
`fa * (w/total)` it receives is nonzero.  (In the steepest-descent
branch a downslope, non-steepest neighbour receives the contribution 0
and is still decremented and possibly pushed.) -/
theorem fd8_updates_exactly_marked_downslope (P : Params) (input : Cell → ℚ)
    (s : St) (p : Cell) (j : Fin 8) :
    ((fd8Step P input s p).out (mv p j) =
      if 0 < totalOf P input p (gget P.d P.nodata s.out p) ∧
          downOf P input p (gget P.d P.nodata s.out p) j = true
      then s.out (mv p j) +
        gget P.d P.nodata s.out p *
          (wOf P input p (gget P.d P.nodata s.out p) j /
            totalOf P input p (gget P.d P.nodata s.out p))
      else s.out (mv p j)) ∧
    ((fd8Step P input s p).ni (mv p j) =
      if 0 < totalOf P input p (gget P.d P.nodata s.out p) ∧
          downOf P input p (gget P.d P.nodata s.out p) j = true
      then s.ni (mv p j) - 1 else s.ni (mv p j)) ∧
    (mv p j ∈ (fd8Step P input s p).stk ↔
      mv p j ∈ s.stk ∨
        (0 < totalOf P input p (gget P.d P.nodata s.out p) ∧
          downOf P input p (gget P.d P.nodata s.out p) j = true ∧
          s.ni (mv p j) = 1)) :=
  fd8Step_neighbor_effect P input s p j

theorem downBelow_iff (P : Params) (input : Cell → ℚ) (p : Cell) (i : Fin 8) :
    downBelow P input p i = true ↔
      (gget P.d P.nodata input (mv p i) < gget P.d P.nodata input p ∧
        gget P.d P.nodata input (mv p i) ≠ P.nodata) := by
  rw [downBelow, Bool.and_eq_true, decide_eq_true_iff, decide_eq_true_iff]

theorem downSteep_iff (P : Params) (input : Cell → ℚ) (p : Cell) (i : Fin 8) :
    downSteep P input p i = true ↔
      (gget P.d P.nodata input (mv p i) ≠ P.nodata ∧ 0 < slope P input p i) := by
  rw [downSteep, Bool.and_eq_true, decide_eq_true_iff, decide_eq_true_iff]

theorem gridLengths_pos (cx cy diag : ℚ) (hcx : 0 < cx) (hcy : 0 < cy)
    (hdiag : 0 < diag) : ∀ i : Fin 8, 0 < gridLengths cx cy diag i := by
  intro i
  fin_cases i
  · exact hdiag
  · exact hcx
  · exact hdiag
  · exact hcy
  · exact hdiag
  · exact hcx
  · exact hdiag
  · exact hcy

theorem steepFold_spec (P : Params) (input : Cell → ℚ) (p : Cell) :
    ∀ (L : List (Fin 8)) (acc : Fin 8 × Option ℚ),
      (∀ m, acc.2 = some m →
        downSteep P input p acc.1 = true ∧ slope P input p acc.1 = m) →
      ((∀ m, (L.foldl (steepStep P input p) acc).2 = some m →
          downSteep P input p (L.foldl (steepStep P input p) acc).1 = true ∧
            slope P input p (L.foldl (steepStep P input p) acc).1 = m) ∧
        (∀ m, acc.2 = some m →
          ∃ m2, (L.foldl (steepStep P input p) acc).2 = some m2 ∧ m ≤ m2) ∧
        (∀ i ∈ L, downSteep P input p i = true →
          ∃ m2, (L.foldl (steepStep P input p) acc).2 = some m2 ∧
            slope P input p i ≤ m2)) := by
  intro L
  induction L with
  | nil =>
    intro acc hacc
    exact ⟨hacc, fun m h => ⟨m, h, le_refl m⟩, by simp⟩
  | cons i L ih =>
    intro acc hacc
    simp only [List.foldl_cons]
    have hstep : ∀ m, (steepStep P input p acc i).2 = some m →
        downSteep P input p (steepStep P input p acc i).1 = true ∧
          slope P input p (steepStep P input p acc i).1 = m := by
      intro m hm
      rw [steepStep] at hm ⊢
      by_cases hc : gget P.d P.nodata input (mv p i) ≠ P.nodata ∧
          0 < slope P input p i
      · rw [if_pos hc] at hm ⊢
        cases hacc2 : acc.2 with
        | none =>
          rw [hacc2] at hm
          dsimp only at hm ⊢
          exact ⟨(downSteep_iff P input p i).mpr hc, Option.some_inj.mp hm⟩
        | some m0 =>
          rw [hacc2] at hm
          dsimp only at hm ⊢
          by_cases hlt : m0 < slope P input p i
          · rw [if_pos hlt] at hm ⊢
            simp only at hm ⊢
            exact ⟨(downSteep_iff P input p i).mpr hc, Option.some_inj.mp hm⟩
          · rw [if_neg hlt] at hm ⊢
            exact hacc m hm
      · rw [if_neg hc] at hm ⊢
        exact hacc m hm
    have hmono : ∀ m, acc.2 = some m →
        ∃ m2, (steepStep P input p acc i).2 = some m2 ∧ m ≤ m2 := by
      intro m hm
      rw [steepStep]
      by_cases hc : gget P.d P.nodata input (mv p i) ≠ P.nodata ∧
          0 < slope P input p i
      · rw [if_pos hc, hm]
        dsimp only
        by_cases hlt : m < slope P input p i
        · rw [if_pos hlt]
          exact ⟨slope P input p i, rfl, le_of_lt hlt⟩
        · rw [if_neg hlt]
          exact ⟨m, hm, le_refl m⟩
      · rw [if_neg hc]
        exact ⟨m, hm, le_refl m⟩
    have hhead : downSteep P input p i = true →
        ∃ m2, (steepStep P input p acc i).2 = some m2 ∧
          slope P input p i ≤ m2 := by
      intro hd
      have hc := (downSteep_iff P input p i).mp hd
      rw [steepStep, if_pos hc]
      cases hacc2 : acc.2 with
      | none => exact ⟨slope P input p i, rfl, le_refl _⟩
      | some m0 =>
        dsimp only
        by_cases hlt : m0 < slope P input p i
        · rw [if_pos hlt]
          exact ⟨slope P input p i, rfl, le_refl _⟩
        · rw [if_neg hlt]
          exact ⟨m0, hacc2, le_of_not_lt hlt⟩
    obtain ⟨g1, g2, g3⟩ := ih (steepStep P input p acc i) hstep
    refine ⟨g1, ?_, ?_⟩
    · intro m hm
      obtain ⟨m1, hm1, hle1⟩ := hmono m hm
      obtain ⟨m2, hm2, hle2⟩ := g2 m1 hm1
      exact ⟨m2, hm2, le_trans hle1 hle2⟩
    · intro i2 hi2 hd2
      rcases List.mem_cons.mp hi2 with h | h
      · subst h
        obtain ⟨m1, hm1, hle1⟩ := hhead hd2
        obtain ⟨m2, hm2, hle2⟩ := g2 m1 hm1
        exact ⟨m2, hm2, le_trans hle1 hle2⟩
      · exact g3 i2 h hd2

/-- C5 counterexample: popping the centre cell in the steepest-descent
branch, the west neighbour (0,0) is strictly lower, valid, and receives
the contribution `100 * (0/1) = 0` — its accumulator value is unchanged
— yet it is not left untouched: its in-degree counter is decremented
from 2 to 1, contradicting the claim that a neighbour receiving a zero
contribution keeps its in-degree.  The east neighbour receives all 100. -/
theorem fd8_zero_contribution_neighbor_still_decremented :
    gget c5P.d c5P.nodata c5In (0, 0) < gget c5P.d c5P.nodata c5In (0, 1) ∧
    gget c5P.d c5P.nodata c5In (0, 0) ≠ c5P.nodata ∧
    ¬(gget c5P.d c5P.nodata c5St.out (0, 1) < c5P.threshold) ∧
    (fd8Step c5P c5In c5St (0, 1)).out (0, 0) = c5St.out (0, 0) ∧
    (fd8Step c5P c5In c5St (0, 1)).ni (0, 0) = c5St.ni (0, 0) - 1 ∧
    (fd8Step c5P c5In c5St (0, 1)).out (0, 2) = c5St.out (0, 2) + 100 := by
  refine ⟨by decide, by decide, ?_, ?_, ?_, ?_⟩ <;> with_unfolding_all decide

theorem wBelow_nonneg (P : Params) (input : Cell → ℚ) (p : Cell)
    (hpow : ∀ x : ℚ, 0 < x → 0 < P.powf x P.exponent) (i : Fin 8) :
    0 ≤ wBelow P input p i := by
  rw [wBelow]
  by_cases hd : downBelow P input p i
  · rw [if_pos hd]
    obtain ⟨hlt, _⟩ := (downBelow_iff P input p i).mp hd
    exact le_of_lt (hpow _ (sub_pos.mpr hlt))
  · rw [if_neg hd]

/-- C4: below the convergence threshold, the popped cell distributes
`fa` among exactly the strictly lower, non-no-data neighbours, each
receiving `fa * (z - z_n)^exponent / total_weights` where the total is
the sum of the weights of all such neighbours; a neighbour with zero or
negative drop, or holding no-data, receives nothing; and when at least
one such neighbour exists the contributions sum to exactly `fa`. -/
theorem fd8_below_threshold_distribution (P : Params) (input : Cell → ℚ)
    (s : St) (p : Cell)
    (hpow : ∀ x : ℚ, 0 < x → 0 < P.powf x P.exponent)
    (hfa : gget P.d P.nodata s.out p < P.threshold) :
    (∀ i : Fin 8,
      (fd8Step P input s p).out (mv p i) - s.out (mv p i) =
        if gget P.d P.nodata input (mv p i) < gget P.d P.nodata input p ∧
            gget P.d P.nodata input (mv p i) ≠ P.nodata
        then gget P.d P.nodata s.out p *
          (P.powf (gget P.d P.nodata input p - gget P.d P.nodata input (mv p i))
              P.exponent / totalBelow P input p)
        else 0) ∧
    ((∃ i : Fin 8,
        gget P.d P.nodata input (mv p i) < gget P.d P.nodata input p ∧
          gget P.d P.nodata input (mv p i) ≠ P.nodata) →
      (∑ i : Fin 8, ((fd8Step P input s p).out (mv p i) - s.out (mv p i))) =
        gget P.d P.nodata s.out p) := by
  have hdOf : ∀ i, downOf P input p (gget P.d P.nodata s.out p) i =
      downBelow P input p i := fun i => by rw [downOf, if_pos hfa]
  have hwOf : ∀ i, wOf P input p (gget P.d P.nodata s.out p) i =
      wBelow P input p i := fun i => by rw [wOf, if_pos hfa]
  have htOf : totalOf P input p (gget P.d P.nodata s.out p) =
      totalBelow P input p := by rw [totalOf, if_pos hfa]
  by_cases hex : ∃ i : Fin 8,
      gget P.d P.nodata input (mv p i) < gget P.d P.nodata input p ∧
        gget P.d P.nodata input (mv p i) ≠ P.nodata
  · obtain ⟨j, hj⟩ := hex
    have hdj : downBelow P input p j = true := (downBelow_iff P input p j).mpr hj
    have hwj : 0 < wBelow P input p j := by
      rw [wBelow, if_pos hdj]
      exact hpow _ (sub_pos.mpr hj.1)
    have htot : 0 < totalBelow P input p := by
      rw [totalBelow]
      exact Finset.sum_pos' (fun i _ => wBelow_nonneg P input p hpow i)
        ⟨j, Finset.mem_univ j, hwj⟩
    have hdelta : ∀ i : Fin 8,
        (fd8Step P input s p).out (mv p i) - s.out (mv p i) =
          gget P.d P.nodata s.out p *
            (wBelow P input p i / totalBelow P input p) := by
      intro i
      have h1 := (fd8Step_neighbor_effect P input s p i).1
      rw [hdOf, hwOf, htOf] at h1
      by_cases hd : downBelow P input p i = true
      · rw [h1, if_pos ⟨htot, hd⟩]
        ring
      · rw [h1, if_neg (by tauto)]
        have hw0 : wBelow P input p i = 0 := by
          rw [wBelow, if_neg (by simpa using hd)]
        rw [hw0, zero_div, mul_zero, sub_self]
    constructor
    · intro i
      rw [hdelta i]
      by_cases hc : gget P.d P.nodata input (mv p i) < gget P.d P.nodata input p ∧
          gget P.d P.nodata input (mv p i) ≠ P.nodata
      · rw [if_pos hc, wBelow, if_pos ((downBelow_iff P input p i).mpr hc)]
      · rw [if_neg hc]
        have hw0 : wBelow P input p i = 0 := by
          rw [wBelow, if_neg (fun hd => hc ((downBelow_iff P input p i).mp hd))]
        rw [hw0, zero_div, mul_zero]
    · intro _
      have : (∑ i : Fin 8, ((fd8Step P input s p).out (mv p i) - s.out (mv p i)))
          = ∑ i : Fin 8, gget P.d P.nodata s.out p *
              (wBelow P input p i / totalBelow P input p) :=
        Finset.sum_congr rfl (fun i _ => hdelta i)
      rw [this, ← Finset.mul_sum, ← Finset.sum_div, ← totalBelow,
        div_self (ne_of_gt htot), mul_one]
  · have hall : ∀ i, downBelow P input p i = false := by
      intro i
      by_contra hd
      exact hex ⟨i, (downBelow_iff P input p i).mp (by simpa using hd)⟩
    have htot0 : totalBelow P input p = 0 := by
      rw [totalBelow]
      refine Finset.sum_eq_zero (fun i _ => ?_)
      rw [wBelow, hall i]
      rfl
    have hng : ¬ 0 < totalOf P input p (gget P.d P.nodata s.out p) := by
      rw [htOf, htot0]
      exact lt_irrefl 0
    constructor
    · intro i
      have h1 := (fd8Step_neighbor_effect P input s p i).1
      rw [h1, if_neg (by tauto), sub_self, if_neg (fun hc => hex ⟨i, hc⟩)]
    · intro hc
      exact absurd hc hex

/-- C6: at or above the convergence threshold, with at least one
strictly lower valid neighbour and positive cell sizes whose diagonal
is the hypotenuse, the popped cell sends 100 percent of `fa` to the
single steepest-descent neighbour — the direction maximizing
`(z - z_n) / grid_lengths[i]` — and every other neighbour's accumulator
is unchanged. -/
theorem fd8_above_threshold_steepest_takes_all (P : Params)
    (input : Cell → ℚ) (s : St) (p : Cell)
    (hfa : ¬ gget P.d P.nodata s.out p < P.threshold)
    (hcx : 0 < P.cx) (hcy : 0 < P.cy) (hdiag : 0 < P.diag)
    (hpyth : P.diag * P.diag = P.cx * P.cx + P.cy * P.cy)
    (hex : ∃ i : Fin 8, gget P.d P.nodata input (mv p i) ≠ P.nodata ∧
      gget P.d P.nodata input (mv p i) < gget P.d P.nodata input p) :
    downSteep P input p (steepDir P input p).1 = true ∧
    (∀ i : Fin 8, downSteep P input p i = true →
      slope P input p i ≤ slope P input p (steepDir P input p).1) ∧
    (fd8Step P input s p).out (mv p (steepDir P input p).1) =
      s.out (mv p (steepDir P input p).1) + gget P.d P.nodata s.out p ∧
    (∀ i : Fin 8, i ≠ (steepDir P input p).1 →
      (fd8Step P input s p).out (mv p i) = s.out (mv p i)) := by
  obtain ⟨i0, hnd0, hlt0⟩ := hex
  have hd0 : downSteep P input p i0 = true :=
    (downSteep_iff P input p i0).mpr
      ⟨hnd0, div_pos (sub_pos.mpr hlt0) (gridLengths_pos P.cx P.cy P.diag hcx hcy hdiag i0)⟩
  obtain ⟨g1, g2, g3⟩ := steepFold_spec P input p (List.finRange 8) (0, none)
    (fun m h => Option.noConfusion h)
  obtain ⟨m, hm, hle0⟩ := g3 i0 (List.mem_finRange i0) hd0
  have hmdir : (steepDir P input p).2 = some m := hm
  have hgood := g1 m hm
  have hdir : downSteep P input p (steepDir P input p).1 = true := hgood.1
  have hslope : slope P input p (steepDir P input p).1 = m := hgood.2
  have hsome : (steepDir P input p).2.isSome = true := by rw [hmdir]; rfl
  have htS : totalSteep P input p = 1 := by rw [totalSteep, if_pos hsome]
  have htOf : totalOf P input p (gget P.d P.nodata s.out p) = 1 := by
    rw [totalOf, if_neg hfa, htS]
  have hdOf : ∀ i, downOf P input p (gget P.d P.nodata s.out p) i =
      downSteep P input p i := fun i => by rw [downOf, if_neg hfa]
  have hwOf : ∀ i, wOf P input p (gget P.d P.nodata s.out p) i =
      wSteep P input p i := fun i => by rw [wOf, if_neg hfa]
  refine ⟨hdir, ?_, ?_, ?_⟩
  · intro i hdi
    obtain ⟨m2, hm2, hle2⟩ := g3 i (List.mem_finRange i) hdi
    have : m2 = m := Option.some_inj.mp (hm2.symm.trans hmdir)
    rw [hslope]
    exact this ▸ hle2
  · have h1 := (fd8Step_neighbor_effect P input s p (steepDir P input p).1).1
    rw [hdOf, hwOf, htOf] at h1
    rw [h1, if_pos ⟨one_pos, hdir⟩, wSteep, if_pos ⟨hsome, rfl⟩]
    rw [div_one, mul_one]
  · intro i hne
    have h1 := (fd8Step_neighbor_effect P input s p i).1
    rw [hdOf, hwOf, htOf] at h1
    by_cases hdi : downSteep P input p i = true
    · rw [h1, if_pos ⟨one_pos, hdi⟩, wSteep, if_neg (fun hc => hne hc.2)]
      rw [zero_div, mul_zero, add_zero]
    · rw [h1, if_neg (by tauto)]

theorem fd8_below_threshold_distribution_witness :
    (∑ i : Fin 8, ((fd8Step c4P c5In unitSt (0, 1)).out (mv (0, 1) i) -
        unitSt.out (mv (0, 1) i))) = gget c4P.d c4P.nodata unitSt.out (0, 1) :=
  (fd8_below_threshold_distribution c4P c5In unitSt (0, 1)
      (fun _ hx => hx) (by decide)).2 ⟨1, by decide, by decide⟩

theorem fd8_above_threshold_steepest_takes_all_witness :
    (fd8Step c6P c5In unitSt (0, 1)).out
        (mv (0, 1) (steepDir c6P c5In (0, 1)).1) =
      unitSt.out (mv (0, 1) (steepDir c6P c5In (0, 1)).1) +
        gget c6P.d c6P.nodata unitSt.out (0, 1) :=
  (fd8_above_threshold_steepest_takes_all c6P c5In unitSt (0, 1) (by decide)
      (by decide) (by decide) (by decide) (by with_unfolding_all decide)
      ⟨1, by decide, by decide⟩).2.2.1

theorem count_foldl (Q : Fin 8 → Prop) [DecidablePred Q] :
    ∀ (L : List (Fin 8)) (a : ℤ),
      L.foldl (fun c i => if Q i then c + 1 else c) a =
        a + ((L.filter (fun i => decide (Q i))).length : ℤ) := by
  intro L
  induction L with
  | nil => intro a; simp
  | cons i L ih =>
    intro a
    simp only [List.foldl_cons, List.filter_cons]
    by_cases hq : Q i
    · rw [if_pos hq, ih, if_pos (by simpa using hq)]
      rw [List.length_cons]
      push_cast
      ring
    · rw [if_neg hq, ih, if_neg (by simpa using hq)]

theorem filter_length_card (Q : Fin 8 → Prop) [DecidablePred Q] :
    ((List.finRange 8).filter (fun i => decide (Q i))).length =
      (Finset.univ.filter Q).card := by
  rw [Fin.univ_def]
  rfl

theorem inflowCount_card (P : Params) (input : Cell → ℚ) (p : Cell) :
    inflowCount P input p =
      ((Finset.univ.filter (fun i : Fin 8 =>
          gget P.d P.nodata input (mv p i) > gget P.d P.nodata input p)).card : ℤ) := by
  rw [inflowCount, count_foldl, filter_length_card, zero_add]

/-- C7 amended: the in-degree pass gives each valid cell the number of
its 8 neighbours whose raster read (out-of-range reads returning the
no-data value, which is compared like any other value) is strictly
greater than the cell's own value, a count in [0,8]; every no-data cell
keeps the sentinel -1; and the interior-pit flag is raised exactly when
some valid cell counts 8. -/
theorem numInflow_spec (P : Params) (input : Cell → ℚ) (p : Cell) :
    (gget P.d P.nodata input p ≠ P.nodata →
      numInflowInit P input p =
        ((Finset.univ.filter (fun i : Fin 8 =>
            gget P.d P.nodata input (mv p i) > gget P.d P.nodata input p)).card : ℤ) ∧
      0 ≤ numInflowInit P input p ∧ numInflowInit P input p ≤ 8) ∧
    (gget P.d P.nodata input p = P.nodata → numInflowInit P input p = -1) ∧
    (interiorPit P input = true ↔ ∃ q ∈ cellsList P.d,
      gget P.d P.nodata input q ≠ P.nodata ∧ inflowCount P input q = 8) := by
  refine ⟨?_, ?_, ?_⟩
  · intro hv
    have hc : numInflowInit P input p =
        ((Finset.univ.filter (fun i : Fin 8 =>
            gget P.d P.nodata input (mv p i) > gget P.d P.nodata input p)).card : ℤ) := by
      rw [numInflowInit, if_pos hv, inflowCount_card]
    refine ⟨hc, ?_, ?_⟩
    · rw [hc]
      exact Int.ofNat_nonneg _
    · rw [hc]
      have hle : (Finset.univ.filter (fun i : Fin 8 =>
          gget P.d P.nodata input (mv p i) > gget P.d P.nodata input p)).card ≤ 8 := by
        have := Finset.card_filter_le (Finset.univ : Finset (Fin 8))
          (fun i : Fin 8 =>
            gget P.d P.nodata input (mv p i) > gget P.d P.nodata input p)
        simpa using this
      exact_mod_cast hle
  · intro hv
    rw [numInflowInit, if_neg (by simpa using hv)]
  · rw [interiorPit, List.any_eq_true]
    constructor
    · rintro ⟨q, hq, hb⟩
      rw [Bool.and_eq_true, decide_eq_true_iff, decide_eq_true_iff] at hb
      exact ⟨q, hq, hb.1, hb.2⟩
    · rintro ⟨q, hq, h1, h2⟩
      refine ⟨q, hq, ?_⟩
      rw [Bool.and_eq_true, decide_eq_true_iff, decide_eq_true_iff]
      exact ⟨h1, h2⟩

/-- C7 counterexample: on a 1-by-1 grid with no-data value 100, the
single valid cell's 8 out-of-range neighbours all read as 100 > 0, so
the in-degree pass records 8 — although the claim's count (in-bounds,
non-no-data, strictly higher neighbours) is 0 — and the interior-pit
flag is raised although no valid cell has 8 valid higher neighbours. -/
theorem inflow_counts_nodata_as_higher :
    gget c7P.d c7P.nodata c7In (0, 0) ≠ c7P.nodata ∧
    numInflowInit c7P c7In (0, 0) = 8 ∧
    claimInflowCount c7P c7In (0, 0) = 0 ∧
    interiorPit c7P c7In = true := by
  exact ⟨by decide, by decide, by decide, by decide⟩

theorem numInflow_spec_witness :
    gget c7P.d c7P.nodata c7In (0, 0) ≠ c7P.nodata ∧
    numInflowInit c7P c7In (0, 0) =
      ((Finset.univ.filter (fun i : Fin 8 =>
          gget c7P.d c7P.nodata c7In (mv (0, 0) i) >
            gget c7P.d c7P.nodata c7In (0, 0))).card : ℤ) :=
  ⟨by decide, ((numInflow_spec c7P c7In (0, 0)).1 (by decide)).1⟩

/-- C1 amended: a completed FD8 run reports at most the interior-pit
warning; the residual-unresolved-cells condition of spec section 7(b)
is never reported, whatever the input and however many cells remain
unresolved when the frontier empties. -/
theorem fd8_run_never_reports_residual (P : Params) (input : Cell → ℚ)
    (fuel : ℕ) (r : RunResult) (h : fd8Run P input fuel = some r) :
    StructuralWarning.residualCells ∉ fd8Warnings r.pit := by
  by_cases hp : r.pit <;> simp [fd8Warnings, hp]

/-- C1 counterexample: the run on `c1In` completes — the frontier
empties — with the valid cell (0,1) still holding the non-zero
in-degree 4, yet the interior-pit flag is down and the warning list is
empty: the residual-unresolved-cells condition is silently dropped, not
reported. -/
theorem fd8_residual_cells_silently_dropped :
    fd8Run c1P c1In 10 = some c1Res ∧
    gget c1P.d c1P.nodata c1In (0, 1) ≠ c1P.nodata ∧
    c1Res.ni (0, 1) = 4 ∧
    c1Res.pit = false ∧
    fd8Warnings c1Res.pit = [] := by
  refine ⟨(Option.some_get _).symm, by decide, ?_, ?_, ?_⟩ <;>
    with_unfolding_all decide

theorem fd8_run_never_reports_residual_witness :
    fd8Run c1P c1In 10 = some c1Res ∧
    StructuralWarning.residualCells ∉ fd8Warnings c1Res.pit :=
  ⟨(Option.some_get _).symm,
    fd8_run_never_reports_residual c1P c1In 10 c1Res (Option.some_get _).symm⟩

end FD8

namespace Clump

theorem validEq_inB (d : Dims) (nodata : ℚ) (input : Cell → ℚ) (z : ℚ)
    (hz : z ≠ nodata) (q : Cell) (hv : gget d nodata input q = z) :
    d.inB q = true := by
  by_contra hin
  rw [gget_apply, if_neg (by simpa using hin)] at hv
  exact hz hv.symm

theorem nbrFold_spec (d : Dims) (nodata : ℚ) (input : Cell → ℚ) (z fid : ℚ)
    (c : Cell) (hz : z ≠ nodata) (hfid : fid ≠ nodata) :
    ∀ (L : List (ℤ × ℤ)) (out : Cell → ℚ) (stk : List Cell),
      (∀ q, out q = fid ∨ out q = nodata) →
      ((∀ q, out q = fid →
          (L.foldl (nbrStep d nodata input z fid c) (out, stk)).1 q = fid) ∧
       (∀ q, (L.foldl (nbrStep d nodata input z fid c) (out, stk)).1 q = fid ∨
          (L.foldl (nbrStep d nodata input z fid c) (out, stk)).1 q = nodata) ∧
       (∀ q, q ∈ (L.foldl (nbrStep d nodata input z fid c) (out, stk)).2 →
          q ∈ stk ∨
            (L.foldl (nbrStep d nodata input z fid c) (out, stk)).1 q = fid) ∧
       (∀ o ∈ L, gget d nodata input (cnbr c o) = z →
          (L.foldl (nbrStep d nodata input z fid c) (out, stk)).1 (cnbr c o) = fid) ∧
       (∀ q, (L.foldl (nbrStep d nodata input z fid c) (out, stk)).1 q = fid →
          out q = fid ∨
            q ∈ (L.foldl (nbrStep d nodata input z fid c) (out, stk)).2) ∧
       (∀ q, q ∈ stk →
          q ∈ (L.foldl (nbrStep d nodata input z fid c) (out, stk)).2)) := by
  intro L
  induction L with
  | nil =>
    intro out stk hbi
    exact ⟨fun q h => h, hbi, fun q hq => Or.inl hq, by simp,
      fun q h => Or.inl h, fun q h => h⟩
  | cons o L ih =>
    intro out stk hbi
    simp only [List.foldl_cons]
    by_cases hc : gget d nodata input (cnbr c o) = z ∧
        gget d nodata out (cnbr c o) = nodata
    · have hstep : nbrStep d nodata input z fid c (out, stk) o =
          (gset d out (cnbr c o) fid, cnbr c o :: stk) := by
        rw [nbrStep, if_pos hc]
      rw [hstep]
      have hin : d.inB (cnbr c o) = true :=
        validEq_inB d nodata input z hz (cnbr c o) hc.1
      have hset : ∀ q, gset d out (cnbr c o) fid q =
          if q = cnbr c o then fid else out q := by
        intro q
        rw [gset_apply]
        by_cases hq : q = cnbr c o
        · rw [if_pos ⟨hin, hq⟩, if_pos hq]
        · rw [if_neg (by tauto), if_neg hq]
      have hbi1 : ∀ q, gset d out (cnbr c o) fid q = fid ∨
          gset d out (cnbr c o) fid q = nodata := by
        intro q
        rw [hset]
        by_cases hq : q = cnbr c o
        · rw [if_pos hq]; exact Or.inl rfl
        · rw [if_neg hq]; exact hbi q
      obtain ⟨g1, g2, g3, g4, g5, g6⟩ :=
        ih (gset d out (cnbr c o) fid) (cnbr c o :: stk) hbi1
      have hmono1 : ∀ q, out q = fid → gset d out (cnbr c o) fid q = fid := by
        intro q hq
        rw [hset]
        by_cases h : q = cnbr c o
        · rw [if_pos h]
        · rw [if_neg h]; exact hq
      have hself : gset d out (cnbr c o) fid (cnbr c o) = fid := by
        rw [hset, if_pos rfl]
      refine ⟨fun q hq => g1 q (hmono1 q hq), g2, ?_, ?_, ?_, ?_⟩
      · intro q hq
        rcases g3 q hq with h | h
        · rcases List.mem_cons.mp h with h2 | h2
          · exact Or.inr (h2 ▸ g1 _ hself)
          · exact Or.inl h2
        · exact Or.inr h
      · intro o2 ho2 hval
        rcases List.mem_cons.mp ho2 with h | h
        · exact h ▸ g1 _ hself
        · exact g4 o2 h hval
      · intro q hq
        rcases g5 q hq with h | h
        · rw [hset] at h
          by_cases h2 : q = cnbr c o
          · exact Or.inr (g6 q (h2 ▸ List.mem_cons_self _ _))
          · rw [if_neg h2] at h
            exact Or.inl h
        · exact Or.inr h
      · intro q hq
        exact g6 q (List.mem_cons_of_mem _ hq)
    · have hstep : nbrStep d nodata input z fid c (out, stk) o = (out, stk) := by
        rw [nbrStep, if_neg hc]
      rw [hstep]
      obtain ⟨g1, g2, g3, g4, g5, g6⟩ := ih out stk hbi
      refine ⟨g1, g2, g3, ?_, g5, g6⟩
      intro o2 ho2 hval
      rcases List.mem_cons.mp ho2 with h | h
      · subst h
        have hin : d.inB (cnbr c o2) = true :=
          validEq_inB d nodata input z hz (cnbr c o2) hval
        have hnn : gget d nodata out (cnbr c o2) ≠ nodata := fun h2 => hc ⟨hval, h2⟩
        rw [gget_apply, if_pos hin] at hnn
        rcases hbi (cnbr c o2) with h2 | h2
        · exact g1 _ h2
        · exact absurd h2 hnn
      · exact g4 o2 h hval

theorem flood_spec (d : Dims) (nodata : ℚ) (input : Cell → ℚ) (z fid : ℚ)
    (hz : z ≠ nodata) (hfid : fid ≠ nodata) :
    ∀ (n : ℕ) (out : Cell → ℚ) (stk : List Cell) (out2 : Cell → ℚ),
      (∀ q, out q = fid ∨ out q = nodata) →
      (∀ q ∈ stk, out q = fid) →
      (∀ q, out q = fid → q ∈ stk ∨ ∀ i : Fin 8,
        gget d nodata input (mv q i) = z → out (mv q i) = fid) →
      flood d nodata true input z fid n (out, stk) = some out2 →
      ((∀ q, out q = fid → out2 q = fid) ∧
       (∀ q, out2 q = fid → ∀ i : Fin 8,
         gget d nodata input (mv q i) = z → out2 (mv q i) = fid)) := by
  intro n
  induction n with
  | zero =>
    intro out stk out2 hbi hstk hcl hrun
    rw [flood] at hrun
    by_cases he : stk.isEmpty
    · rw [if_pos he] at hrun
      obtain rfl : out = out2 := Option.some_inj.mp hrun
      refine ⟨fun q h => h, ?_⟩
      intro q hq i hval
      rcases hcl q hq with h | h
      · rw [List.isEmpty_iff] at he
        rw [he] at h
        exact absurd h (List.not_mem_nil q)
      · exact h i hval
    · rw [if_neg he] at hrun
      exact absurd hrun (by simp)
  | succ n ih =>
    intro out stk out2 hbi hstk hcl hrun
    rw [flood] at hrun
    cases stk with
    | nil =>
      obtain rfl : out = out2 := Option.some_inj.mp hrun
      refine ⟨fun q h => h, ?_⟩
      intro q hq i hval
      rcases hcl q hq with h | h
      · exact absurd h (List.not_mem_nil q)
      · exact h i hval
    | cons c rest =>
      simp only at hrun
      obtain ⟨g1, g2, g3, g4, g5, g6⟩ :=
        nbrFold_spec d nodata input z fid c hz hfid (clumpOffsets true) out rest hbi
      have hmv : ∀ i : Fin 8, cnbr c (dX i, dY i) = mv c i := fun i => rfl
      have hmem8 : ∀ i : Fin 8, ((dX i, dY i) : ℤ × ℤ) ∈ clumpOffsets true := by
        intro i
        rw [clumpOffsets, if_pos rfl]
        exact List.mem_map.mpr ⟨i, List.mem_finRange i, rfl⟩
      have hstk1 : ∀ q ∈ (floodStep d nodata true input z fid (out, rest) c).2,
          (floodStep d nodata true input z fid (out, rest) c).1 q = fid := by
        intro q hq
        rcases g3 q hq with h | h
        · exact g1 q (hstk q (List.mem_cons_of_mem c h))
        · exact h
      have hcl1 : ∀ q, (floodStep d nodata true input z fid (out, rest) c).1 q = fid →
          q ∈ (floodStep d nodata true input z fid (out, rest) c).2 ∨
            ∀ i : Fin 8, gget d nodata input (mv q i) = z →
              (floodStep d nodata true input z fid (out, rest) c).1 (mv q i) = fid := by
        intro q hq
        by_cases hqc : q = c
        · subst hqc
          refine Or.inr (fun i hval => ?_)
          have := g4 (dX i, dY i) (hmem8 i) (by rw [hmv i]; exact hval)
          rw [hmv i] at this
          exact this
        · rcases g5 q hq with h | h
          · rcases hcl q h with h2 | h2
            · rcases List.mem_cons.mp h2 with h3 | h3
              · exact absurd h3 hqc
              · exact Or.inl (g6 q h3)
            · exact Or.inr (fun i hval => g1 _ (h2 i hval))
          · exact Or.inl h
      obtain ⟨m1, m2⟩ := ih (floodStep d nodata true input z fid (out, rest) c).1
        (floodStep d nodata true input z fid (out, rest) c).2 out2 g2 hstk1 hcl1
        (by rw [← hrun])
      exact ⟨fun q hq => m1 q (g1 q hq), m2⟩

theorem reach_labeled (d : Dims) (nodata : ℚ) (input : Cell → ℚ) (z fid : ℚ)
    (out2 : Cell → ℚ)
    (hcl : ∀ c, out2 c = fid → ∀ i : Fin 8,
      gget d nodata input (mv c i) = z → out2 (mv c i) = fid) :
    ∀ p q : Cell, ReachEq d nodata input z p q → out2 p = fid → out2 q = fid := by
  intro p q h
  induction h with
  | refl _ => exact fun h => h
  | tail q2 i hpq hval ih => exact fun hp => hcl q2 (ih hp) i hval

theorem clumpScan_stable (d : Dims) (nodata : ℚ) (diag : Bool) (back : ℚ)
    (input : Cell → ℚ) (fuel : ℕ) :
    ∀ (L : List Cell) (st : (Cell → ℚ) × ℚ),
      (∀ p ∈ L, gget d nodata input p ≠ nodata →
        gget d nodata st.1 p ≠ nodata ∧ gget d nodata input p ≠ back) →
      clumpScan d nodata diag back input fuel L st = some st := by
  intro L
  induction L with
  | nil => intro st _; rfl
  | cons p ps ih =>
    intro st hL
    rw [clumpScan]
    by_cases hv : gget d nodata input p ≠ nodata
    · obtain ⟨hlab, hback⟩ := hL p (List.mem_cons_self p ps) hv
      rw [if_neg (fun h => hlab h.2.2), if_neg (fun h => hv h), if_neg hback]
      exact ih st (fun q hq => hL q (List.mem_cons_of_mem p hq))
    · rw [if_neg (by tauto), if_pos (not_not.mp hv)]
      exact ih st (fun q hq => hL q (List.mem_cons_of_mem p hq))

theorem valid_inB (d : Dims) (nodata : ℚ) (input : Cell → ℚ) (q : Cell)
    (h : gget d nodata input q ≠ nodata) : d.inB q = true := by
  by_contra hin
  exact h (by rw [gget_apply, if_neg (by simpa using hin)])

theorem mem_cellsList (d : Dims) (q : Cell) (h : d.inB q = true) :
    q ∈ cellsList d := by
  obtain ⟨a, b⟩ := q
  rw [Dims.inB] at h
  simp only [Bool.and_eq_true, decide_eq_true_iff] at h
  simp only [cellsList, List.mem_flatMap, List.mem_map, List.mem_range,
    Prod.mk.injEq]
  refine ⟨a.toNat, ?_, b.toNat, ?_, ?_, ?_⟩
  · omega
  · omega
  · exact Int.toNat_of_nonneg h.1.1.1
  · exact Int.toNat_of_nonneg h.1.2

theorem clumpScan_labels (d : Dims) (nodata back v : ℚ) (input : Cell → ℚ)
    (fuel : ℕ) (hvz : v ≠ nodata) (hback : v ≠ back) (hone : (1 : ℚ) ≠ nodata)
    (hval : ∀ q : Cell, gget d nodata input q ≠ nodata →
      gget d nodata input q = v)
    (hconn : ∀ p q : Cell, gget d nodata input p ≠ nodata →
      gget d nodata input q ≠ nodata → ReachEq d nodata input v p q) :
    ∀ (L : List Cell),
      (∀ q : Cell, gget d nodata input q ≠ nodata → q ∈ L) →
      ∀ (outF : Cell → ℚ) (fidF : ℚ),
        clumpScan d nodata true back input fuel L (fun _ => nodata, 0) =
          some (outF, fidF) →
        (∀ q : Cell, gget d nodata input q ≠ nodata → outF q = 1) ∧
        ((∃ q : Cell, gget d nodata input q ≠ nodata) → fidF = 1) := by
  intro L
  induction L with
  | nil =>
    intro hcover outF fidF hrun
    refine ⟨?_, ?_⟩
    · intro q hq
      exact absurd (hcover q hq) (List.not_mem_nil q)
    · rintro ⟨q, hq⟩
      exact absurd (hcover q hq) (List.not_mem_nil q)
  | cons p ps ih =>
    intro hcover outF fidF hrun
    rw [clumpScan] at hrun
    by_cases hpv : gget d nodata input p ≠ nodata
    · have hzv : gget d nodata input p = v := hval p hpv
      have hinp : d.inB p = true := valid_inB d nodata input p hpv
      have hzout : gget d nodata (fun _ => nodata) p = nodata := by
        rw [gget_apply]
        exact ite_self nodata
      rw [if_pos ⟨hpv, by rw [hzv]; exact hback, hzout⟩] at hrun
      cases hfl : flood d nodata true input (gget d nodata input p) (0 + 1) fuel
          (gset d (fun _ => nodata) p (0 + 1), [p]) with
      | none => rw [hfl] at hrun; exact absurd hrun (by simp)
      | some out2 =>
        simp only [hfl] at hrun
        rw [hzv] at hfl
        simp only [zero_add] at hfl hrun
        have hset1 : ∀ q, gset d (fun _ => nodata) p 1 q =
            if q = p then 1 else nodata := by
          intro q
          rw [gset_apply]
          by_cases hq : q = p
          · rw [if_pos ⟨hinp, hq⟩, if_pos hq]
          · rw [if_neg (by tauto), if_neg hq]
        have hbi : ∀ q, gset d (fun _ => nodata) p 1 q = 1 ∨
            gset d (fun _ => nodata) p 1 q = nodata := by
          intro q
          rw [hset1]
          by_cases hq : q = p
          · rw [if_pos hq]; exact Or.inl rfl
          · rw [if_neg hq]; exact Or.inr rfl
        have hstk : ∀ q ∈ [p], gset d (fun _ => nodata) p 1 q = 1 := by
          intro q hq
          rw [List.mem_singleton.mp hq, hset1, if_pos rfl]
        have hcl0 : ∀ q, gset d (fun _ => nodata) p 1 q = 1 → q ∈ [p] ∨
            ∀ i : Fin 8, gget d nodata input (mv q i) = v →
              gset d (fun _ => nodata) p 1 (mv q i) = 1 := by
          intro q hq
          rw [hset1] at hq
          by_cases h : q = p
          · exact Or.inl (h ▸ List.mem_singleton_self p)
          · rw [if_neg h] at hq
            exact absurd hq.symm hone
        obtain ⟨hmono, hclosure⟩ := flood_spec d nodata input v 1 hvz hone fuel
          (gset d (fun _ => nodata) p 1) [p] out2 hbi hstk hcl0 hfl
        have hp2 : out2 p = 1 := hmono p (by rw [hset1, if_pos rfl])
        have hlab : ∀ q : Cell, gget d nodata input q ≠ nodata → out2 q = 1 := by
          intro q hq
          exact reach_labeled d nodata input v 1 out2 hclosure p q
            (hconn p q hpv hq) hp2
        have hstable := clumpScan_stable d nodata true back input fuel ps
          (out2, 1) (by
            intro q _ hq
            refine ⟨?_, by rw [hval q hq]; exact hback⟩
            show gget d nodata out2 q ≠ nodata
            have hinq : d.inB q = true := valid_inB d nodata input q hq
            rw [gget_apply, if_pos hinq, hlab q hq]
            exact hone)
        rw [hstable] at hrun
        have hpair := Option.some_inj.mp hrun
        injection hpair with ho hf
        refine ⟨?_, fun _ => hf.symm⟩
        intro q hq
        rw [ho] at hlab
        exact hlab q hq
    · rw [if_neg (by tauto), if_pos (not_not.mp hpv)] at hrun
      refine ih ?_ outF fidF hrun
      intro q hq
      rcases List.mem_cons.mp (hcover q hq) with h | h
      · exact absurd (h ▸ hq) (by simpa using hpv)
      · exact h

/-- C9: when all valid cells of a raster hold one common value `v`,
distinct from the background value and the no-data sentinel, and they
form a single 8-connected component, a completed region-labeling run
assigns the single label 1 to every valid cell, and allocates exactly
one region id. -/
theorem clump_single_component_single_label (d : Dims) (nodata back v : ℚ)
    (input : Cell → ℚ) (fuel : ℕ) (outF : Cell → ℚ) (fidF : ℚ)
    (hvz : v ≠ nodata) (hback : v ≠ back) (hone : (1 : ℚ) ≠ nodata)
    (hval : ∀ q : Cell, gget d nodata input q ≠ nodata →
      gget d nodata input q = v)
    (hconn : ∀ p q : Cell, gget d nodata input p ≠ nodata →
      gget d nodata input q ≠ nodata → ReachEq d nodata input v p q)
    (hrun : clumpRun d nodata true back input fuel = some (outF, fidF)) :
    (∀ q : Cell, gget d nodata input q ≠ nodata → outF q = 1) ∧
    ((∃ q : Cell, gget d nodata input q ≠ nodata) → fidF = 1) :=
  clumpScan_labels d nodata back v input fuel hvz hback hone hval hconn
    (cellsList d)
    (fun q hq => mem_cellsList d q (valid_inB d nodata input q hq))
    outF fidF hrun

theorem reach_trans (d : Dims) (nodata : ℚ) (input : Cell → ℚ) (z : ℚ)
    (p q r : Cell) (h1 : ReachEq d nodata input z p q)
    (h2 : ReachEq d nodata input z q r) : ReachEq d nodata input z p r := by
  induction h2 with
  | refl _ => exact h1
  | tail q2 i hq2 hval ih => exact ReachEq.tail p q2 i ih hval

theorem c9_from_center : ∀ c : Cell, c9d.inB c = true →
    ReachEq c9d (-9) c9In 7 (1, 1) c := by
  intro c hc
  obtain ⟨a, b⟩ := c
  rw [Dims.inB] at hc
  simp only [Bool.and_eq_true, decide_eq_true_iff] at hc
  obtain ⟨⟨⟨ha0, ha3⟩, hb0⟩, hb3⟩ := hc
  have ha3b : a < 3 := ha3
  have hb3b : b < 3 := hb3
  interval_cases a <;> interval_cases b <;>
    first
      | exact ReachEq.refl _ (by decide)
      | exact ReachEq.tail _ _ (0 : Fin 8) (ReachEq.refl _ (by decide)) (by decide)
      | exact ReachEq.tail _ _ (1 : Fin 8) (ReachEq.refl _ (by decide)) (by decide)
      | exact ReachEq.tail _ _ (2 : Fin 8) (ReachEq.refl _ (by decide)) (by decide)
      | exact ReachEq.tail _ _ (3 : Fin 8) (ReachEq.refl _ (by decide)) (by decide)
      | exact ReachEq.tail _ _ (4 : Fin 8) (ReachEq.refl _ (by decide)) (by decide)
      | exact ReachEq.tail _ _ (5 : Fin 8) (ReachEq.refl _ (by decide)) (by decide)
      | exact ReachEq.tail _ _ (6 : Fin 8) (ReachEq.refl _ (by decide)) (by decide)
      | exact ReachEq.tail _ _ (7 : Fin 8) (ReachEq.refl _ (by decide)) (by decide)

theorem c9_to_center : ∀ c : Cell, c9d.inB c = true →
    ReachEq c9d (-9) c9In 7 c (1, 1) := by
  intro c hc
  obtain ⟨a, b⟩ := c
  rw [Dims.inB] at hc
  simp only [Bool.and_eq_true, decide_eq_true_iff] at hc
  obtain ⟨⟨⟨ha0, ha3⟩, hb0⟩, hb3⟩ := hc
  have ha3b : a < 3 := ha3
  have hb3b : b < 3 := hb3
  interval_cases a <;> interval_cases b <;>
    first
      | exact ReachEq.refl _ (by decide)
      | exact ReachEq.tail _ _ (0 : Fin 8) (ReachEq.refl _ (by decide)) (by decide)
      | exact ReachEq.tail _ _ (1 : Fin 8) (ReachEq.refl _ (by decide)) (by decide)
      | exact ReachEq.tail _ _ (2 : Fin 8) (ReachEq.refl _ (by decide)) (by decide)
      | exact ReachEq.tail _ _ (3 : Fin 8) (ReachEq.refl _ (by decide)) (by decide)
      | exact ReachEq.tail _ _ (4 : Fin 8) (ReachEq.refl _ (by decide)) (by decide)
      | exact ReachEq.tail _ _ (5 : Fin 8) (ReachEq.refl _ (by decide)) (by decide)
      | exact ReachEq.tail _ _ (6 : Fin 8) (ReachEq.refl _ (by decide)) (by decide)
      | exact ReachEq.tail _ _ (7 : Fin 8) (ReachEq.refl _ (by decide)) (by decide)

theorem clump_single_component_single_label_witness :
    clumpRun c9d (-9) true (-8) c9In 30 = some (c9Res.1, c9Res.2) ∧
    c9Res.1 (1, 1) = 1 ∧ c9Res.2 = 1 := by
  have hrun : clumpRun c9d (-9) true (-8) c9In 30 = some (c9Res.1, c9Res.2) :=
    (Option.some_get _).symm
  have hmain := clump_single_component_single_label c9d (-9) (-8) 7 c9In 30
    c9Res.1 c9Res.2 (by decide) (by decide) (by decide)
    (by
      intro q hq
      by_cases h : c9d.inB q
      · rw [gget_apply, if_pos h]
        rfl
      · rw [gget_apply, if_neg h] at hq
        exact absurd rfl hq)
    (fun p q hp hq =>
      reach_trans c9d (-9) c9In 7 p (1, 1) q
        (c9_to_center p (valid_inB c9d (-9) c9In p hp))
        (c9_from_center q (valid_inB c9d (-9) c9In q hq)))
    hrun
  refine ⟨hrun, hmain.1 (1, 1) ?_, hmain.2 ⟨(1, 1), ?_⟩⟩
  · rw [gget_apply, if_pos (by decide)]
    decide
  · rw [gget_apply, if_pos (by decide)]
    decide

end Clump

end Whitebox
